import Mathlib

/-!
Cornucopia: the box-constrained least-squares solver (`Solver.cpp`)

A shallow embedding of `LSSolver` and `LSDenseEvalData` and the properties of
the solver stated in the specification.

Conventions of the embedding

* `double` is modelled by `ℚ`: exact arithmetic, no rounding, no NaN, no
  infinity.  The constants `1e-16`, `1e-8` and `1e100` are the rationals
  `1 / 10 ^ 16`, `1 / 10 ^ 8` and `10 ^ 100`.
* `Eigen::VectorXd` is a list of rationals; reading a coefficient outside the
  vector (undefined in C++) reads `0`, writing one is a no-op.
* `Eigen::MatrixXd` is a pair of dimensions and a coefficient function.
* `Eigen::LDLT<MatrixXd>::solve` belongs to the Eigen library, not to this
  repository: it is a parameter `ldlt` of the dense evaluation data.
* `std::set<LSBoxConstraint>` is a list kept in the order of the set.
-/

namespace Cornu

/-! ## Vectors -/

/-- Model of `Eigen::VectorXd`. -/
abbrev VectorXd := List ℚ

namespace VectorXd

/-- Read access `v[i]`. -/
def coeff (v : VectorXd) (i : Nat) : ℚ := v.getD i 0

/-- Write access `v[i] = a`. -/
def setCoeff (v : VectorXd) (i : Nat) (a : ℚ) : VectorXd := v.set i a

/-- Sum `x + delta` of two vectors of the same size (used for `x += delta`). -/
def add (x delta : VectorXd) : VectorXd := List.zipWith (fun a b => a + b) x delta

/-- Difference `x - y` of two vectors of the same size. -/
def sub (x y : VectorXd) : VectorXd := List.zipWith (fun a b => a - b) x y

/-- Unary minus `-v`. -/
def neg (v : VectorXd) : VectorXd := v.map (fun a => -a)

/-- Product `delta * s` with a scalar (used for `delta *= minScale`). -/
def scale (delta : VectorXd) (s : ℚ) : VectorXd := delta.map (fun a => a * s)

/-- `VectorXd::Zero(n)`. -/
def Zero (n : Nat) : VectorXd := List.replicate n 0

/-- `v.squaredNorm()`. -/
def squaredNorm : VectorXd → ℚ
  | [] => 0
  | a :: v => a * a + squaredNorm v

end VectorXd

/-! ## Box constraints and sets of them -/

/-- The struct `LSBoxConstraint`: the bound `sign * (x[index] - value) >= 0`. -/
structure LSBoxConstraint where
  index : Nat
  value : ℚ
  sign : Int
  deriving DecidableEq

/-- Modelled from the spec: the ordering of `LSBoxConstraint` (its `operator<` is declared in
`Solver.h`, which is not among the sources): constraints are ordered by `index`, so a
`std::set<LSBoxConstraint>` holds at most one constraint per index and `insert` leaves the
set unchanged when a constraint of the same index is already present. The set is modelled
by the list of its elements in increasing order. -/
def setInsert (c : LSBoxConstraint) : List LSBoxConstraint → List LSBoxConstraint
  | [] => [c]
  | a :: s =>
    if c.index < a.index then c :: a :: s
    else if a.index < c.index then a :: setInsert c s
    else a :: s

/-- The constraint `c` holds at `x`: `sign * (x[index] - value) >= 0`. -/
def LSBoxConstraint.holdsAt (c : LSBoxConstraint) (x : VectorXd) : Prop :=
  0 ≤ (c.sign : ℚ) * (VectorXd.coeff x c.index - c.value)

instance (c : LSBoxConstraint) (x : VectorXd) : Decidable (c.holdsAt x) := by
  unfold LSBoxConstraint.holdsAt; infer_instance

/-- The test of `_clamp`: `(x[c.index] - c.value) * c.sign < 0`. -/
def LSBoxConstraint.violatedAt (c : LSBoxConstraint) (x : VectorXd) : Prop :=
  (VectorXd.coeff x c.index - c.value) * (c.sign : ℚ) < 0

instance (c : LSBoxConstraint) (x : VectorXd) : Decidable (c.violatedAt x) := by
  unfold LSBoxConstraint.violatedAt; infer_instance

/-- The abstract pair `LSProblem` / `LSEvalData` as `LSSolver::solve` uses it.
`error x` is `_problem->eval(x, evalData)` followed by `evalData->error()` (and also
`_problem->error(x, evalData)`); `solveForDelta x damping activeSet` is the call
`evalData->solveForDelta(damping, delta, activeSet)` on the data evaluated at `x`: it returns
the step `delta` and the updated active set. -/
structure LSProblem where
  error : VectorXd → ℚ
  solveForDelta : VectorXd → ℚ → List LSBoxConstraint → VectorXd × List LSBoxConstraint

/-- The class `LSSolver`. -/
structure LSSolver where
  _problem : LSProblem
  _constraints : List LSBoxConstraint
  _damping : ℚ
  _maxIter : Int

namespace LSSolver

/-- The constructor `LSSolver::LSSolver`: damping `1.`, at most `100` iterations. -/
def new (problem : LSProblem) (constraints : List LSBoxConstraint) : LSSolver :=
  { _problem := problem, _constraints := constraints, _damping := 1, _maxIter := 100 }

/-- The loop of `LSSolver::_clamp` over the constraints still to visit. -/
def clampLoop : List LSBoxConstraint → VectorXd → List LSBoxConstraint →
    VectorXd × List LSBoxConstraint
  | [], x, out => (x, out)
  | c :: cs, x, out =>
    if (VectorXd.coeff x c.index - c.value) * (c.sign : ℚ) < 0 then
      clampLoop cs (VectorXd.setCoeff x c.index c.value) (setInsert c out)
    else
      clampLoop cs x out

/-- `LSSolver::_clamp`: returns the clamped `x` and the set of clamped constraints. -/
def _clamp (S : LSSolver) (x : VectorXd) : VectorXd × List LSBoxConstraint :=
  clampLoop S._constraints x []

/-- The loop of `LSSolver::_project`, at position `i` of the constraint list, with the
current `closestConstraint` and `minScale`. -/
def projectLoop (from_ delta : VectorXd) : List LSBoxConstraint → Nat → Int → ℚ → Int × ℚ
  | [], _, closestConstraint, minScale => (closestConstraint, minScale)
  | c :: cs, i, closestConstraint, minScale =>
    if |VectorXd.coeff delta c.index| < 1 / 10 ^ 16 then
      projectLoop from_ delta cs (i + 1) closestConstraint minScale
    else
      let scale := (c.value - VectorXd.coeff from_ c.index) / VectorXd.coeff delta c.index
      if (VectorXd.coeff from_ c.index + VectorXd.coeff delta c.index - c.value) * (c.sign : ℚ) ≥ 0 then
        projectLoop from_ delta cs (i + 1) closestConstraint minScale
      else if scale < minScale then
        projectLoop from_ delta cs (i + 1) (i : Int) scale
      else
        projectLoop from_ delta cs (i + 1) closestConstraint minScale

/-- `LSSolver::_project`: returns `closestConstraint` and the rescaled `delta`. -/
def _project (S : LSSolver) (from_ delta : VectorXd) : Int × VectorXd :=
  let r := projectLoop from_ delta S._constraints 0 (-1) 1
  if r.1 ≥ 0 then (r.1, VectorXd.scale delta r.2) else (r.1, delta)

/-- The last four statements of the loop body of `LSSolver::solve`: `solveForDelta`,
`_project`, the insertion of the new constraint and `x += delta`. Returns the new `x` and
the new active set. -/
def advance (S : LSSolver) (x : VectorXd) (activeSet : List LSBoxConstraint) :
    VectorXd × List LSBoxConstraint :=
  let r := S._problem.solveForDelta x S._damping activeSet
  let p := S._project x r.1
  let activeSet :=
    if p.1 ≠ -1 then
      match S._constraints[p.1.toNat]? with
      | some c => setInsert c r.2
      | none => r.2
    else r.2
  (VectorXd.add x p.2, activeSet)

/-- The calls `solve` makes, in order (a record kept beside the computation). -/
inductive Event where
  | eval (x : VectorXd)
  | solveForDelta
  | project
  deriving DecidableEq

/-- The local variables of `LSSolver::solve` at the head of the loop. -/
structure SolveState where
  x : VectorXd
  activeSet : List LSBoxConstraint
  best : VectorXd
  bestError : ℚ

/-- How the loop of `solve` ends: by `return x` inside the loop, or by running out of
iterations with the local variables `s`. -/
inductive Outcome where
  | returned (x : VectorXd) (log : List Event)
  | finished (s : SolveState) (log : List Event)

/-- One pass through the body of the loop of `LSSolver::solve` from the local variables `s`:
`none` when the body executes `return x`, otherwise the local variables after `x += delta`. -/
def body (S : LSSolver) (s : SolveState) : Option SolveState :=
  let error := S._problem.error s.x
  if error < s.bestError then
    if error < 1 / 10 ^ 8 then
      none
    else
      let a := S.advance s.x s.activeSet
      some { x := a.1, activeSet := a.2, best := s.x, bestError := error }
  else
    let a := S.advance s.x s.activeSet
    some { x := a.1, activeSet := a.2, best := s.best, bestError := s.bestError }

/-- The loop `for(int iter = 0; iter < _maxIter; ++iter)` of `LSSolver::solve`, with `n`
iterations left; `log` records the calls made so far. -/
def loop (S : LSSolver) : Nat → SolveState → List Event → Outcome
  | 0, s, log => Outcome.finished s log
  | n + 1, s, log =>
    match S.body s with
    | none => Outcome.returned s.x (log ++ [Event.eval s.x])
    | some s1 =>
      loop S n s1 (log ++ [Event.eval s.x] ++ [Event.solveForDelta, Event.project])

/-- The state of `solve` when the loop is entered: `best` is an empty vector, `bestError`
is `1e100`, `x` is the clamped guess. -/
def initState (S : LSSolver) (guess : VectorXd) : SolveState :=
  let c := S._clamp guess
  { x := c.1, activeSet := c.2, best := [], bestError := 10 ^ 100 }

/-- `LSSolver::solve` together with the record of its calls. -/
def solveLog (S : LSSolver) (guess : VectorXd) : VectorXd × List Event :=
  match loop S S._maxIter.toNat (S.initState guess) [] with
  | Outcome.returned x log => (x, log)
  | Outcome.finished s log =>
    let error := S._problem.error s.x
    if error < s.bestError then (s.x, log ++ [Event.eval s.x])
    else (s.best, log ++ [Event.eval s.x])

/-- `LSSolver::solve`. -/
def solve (S : LSSolver) (guess : VectorXd) : VectorXd := (S.solveLog guess).1

/-- The points at which `solve` evaluates the problem, in order: the `x` at the head of
every iteration it runs, and the final `x` after the loop. -/
def evaluated (S : LSSolver) (guess : VectorXd) : List VectorXd :=
  (S.solveLog guess).2.filterMap (fun e => match e with | Event.eval x => some x | _ => none)

end LSSolver

/-! ## Dense matrices -/

/-- The sum `f 0 + ... + f (n - 1)`. -/
def sumTo : Nat → (Nat → ℚ) → ℚ
  | 0, _ => 0
  | n + 1, f => sumTo n f + f n

/-- The vector of size `n` with the coefficients `f 0, ..., f (n - 1)`. -/
def VectorXd.ofFn : Nat → (Nat → ℚ) → VectorXd
  | 0, _ => []
  | n + 1, f => VectorXd.ofFn n f ++ [f n]

/-- Model of `Eigen::MatrixXd`: the dimensions and the coefficients. -/
structure MatrixXd where
  rows : Nat
  cols : Nat
  coeff : Nat → Nat → ℚ

namespace MatrixXd

/-- `MatrixXd::Identity(rows, cols)`. -/
def Identity (rows cols : Nat) : MatrixXd :=
  { rows := rows, cols := cols, coeff := fun i j => if i = j then 1 else 0 }

/-- A matrix `MatrixXd lhs(rows, cols)` that has not been filled yet (read as zeros). -/
def uninit (rows cols : Nat) : MatrixXd :=
  { rows := rows, cols := cols, coeff := fun _ _ => 0 }

/-- Product `A * s` with a scalar. -/
def smul (A : MatrixXd) (s : ℚ) : MatrixXd :=
  { rows := A.rows, cols := A.cols, coeff := fun i j => A.coeff i j * s }

/-- Sum `A + B`. -/
def add (A B : MatrixXd) : MatrixXd :=
  { rows := A.rows, cols := A.cols, coeff := fun i j => A.coeff i j + B.coeff i j }

/-- Unary minus `-A`. -/
def neg (A : MatrixXd) : MatrixXd :=
  { rows := A.rows, cols := A.cols, coeff := fun i j => -A.coeff i j }

/-- `A.transpose()`. -/
def transpose (A : MatrixXd) : MatrixXd :=
  { rows := A.cols, cols := A.rows, coeff := fun i j => A.coeff j i }

/-- Product `A * B` of two matrices. -/
def mul (A B : MatrixXd) : MatrixXd :=
  { rows := A.rows, cols := B.cols,
    coeff := fun i j => sumTo A.cols (fun k => A.coeff i k * B.coeff k j) }

/-- Product `A * v` of a matrix and a vector. -/
def mulVec (A : MatrixXd) (v : VectorXd) : VectorXd :=
  VectorXd.ofFn A.rows (fun i => sumTo A.cols (fun k => A.coeff i k * VectorXd.coeff v k))

/-- The column `A.col(j)`. -/
def col (A : MatrixXd) (j : Nat) : Nat → ℚ := fun i => A.coeff i j

/-- The assignment `A.col(j) = c`. -/
def setCol (A : MatrixXd) (j : Nat) (c : Nat → ℚ) : MatrixXd :=
  { rows := A.rows, cols := A.cols, coeff := fun i k => if k = j then c i else A.coeff i k }

end MatrixXd

/-! ## The dense evaluation data -/

/-- The members `_err` (residual vector) and `_errDer` (its Jacobian) of `LSDenseEvalData`. -/
structure LSDenseEvalData where
  _err : VectorXd
  _errDer : MatrixXd

namespace LSDenseEvalData

/-- Modelled from the spec: `LSDenseEvalData::error()`, defined in `Solver.h`, which is not
among the sources; the scalar error is the squared norm of the residual vector. -/
def error (d : LSDenseEvalData) : ℚ := VectorXd.squaredNorm d._err

/-- The loop `constraintIndices[it->index] = true` over the active set. -/
def markIndices : List LSBoxConstraint → List Bool → List Bool
  | [], constraintIndices => constraintIndices
  | c :: cs, constraintIndices => markIndices cs (constraintIndices.set c.index true)

/-- The loop that fills `lhs` with the columns of `_errDer` whose index is not flagged; the
flags still to visit are those of the indices `i, i + 1, ...`. -/
def gatherLoop (errDer : MatrixXd) : List Bool → Nat → Nat → MatrixXd → MatrixXd
  | [], _, _, lhs => lhs
  | true :: flags, i, offs, lhs => gatherLoop errDer flags (i + 1) (offs + 1) lhs
  | false :: flags, i, offs, lhs =>
    gatherLoop errDer flags (i + 1) offs (lhs.setCol (i - offs) (errDer.col i))

/-- The loop that fills `out`: `0.` at a flagged index, `x[i - offs]` elsewhere. -/
def scatterLoop (x : VectorXd) : List Bool → Nat → Nat → VectorXd → VectorXd
  | [], _, _, out => out
  | true :: flags, i, offs, out =>
    scatterLoop x flags (i + 1) (offs + 1) (VectorXd.setCoeff out i 0)
  | false :: flags, i, offs, out =>
    scatterLoop x flags (i + 1) offs (VectorXd.setCoeff out i (VectorXd.coeff x (i - offs)))

/-- The loop that erases from the active set the constraints with
`gradient[it->index] * it->sign < 0`. -/
def releaseLoop (gradient : VectorXd) : List LSBoxConstraint → List LSBoxConstraint
  | [] => []
  | c :: cs =>
    if VectorXd.coeff gradient c.index * (c.sign : ℚ) < 0 then releaseLoop gradient cs
    else c :: releaseLoop gradient cs

/-- `LSDenseEvalData::solveForDelta`: returns the step `out` and the updated active set.
`ldlt A b` stands for `LDLT<MatrixXd>(A).solve(b)`. -/
def solveForDelta (ldlt : MatrixXd → VectorXd → VectorXd) (d : LSDenseEvalData) (damping : ℚ)
    (constraints : List LSBoxConstraint) : VectorXd × List LSBoxConstraint :=
  let vars := d._errDer.cols
  if constraints.isEmpty then
    (ldlt (((MatrixXd.Identity vars vars).smul damping).add (d._errDer.transpose.mul d._errDer))
      (d._errDer.transpose.neg.mulVec d._err), constraints)
  else
    let rhs := VectorXd.neg d._err
    let constraintIndices := markIndices constraints (List.replicate vars false)
    let out :=
      if vars > constraints.length then
        let lhs := gatherLoop d._errDer constraintIndices 0 0
          (MatrixXd.uninit d._errDer.rows (vars - constraints.length))
        let x := ldlt (((MatrixXd.Identity lhs.cols lhs.cols).smul damping).add
          (lhs.transpose.mul lhs)) (lhs.transpose.mulVec rhs)
        scatterLoop x constraintIndices 0 0 (VectorXd.Zero d._errDer.cols)
      else
        VectorXd.Zero d._errDer.cols
    let gradient := d._errDer.transpose.mulVec (VectorXd.sub (d._errDer.mulVec out) rhs)
    (out, releaseLoop gradient constraints)

end LSDenseEvalData

/-- The `LSProblem` of a problem with dense evaluation data: `eval x` is the data that
`_problem->eval(x, evalData)` stores. -/
def denseProblem (ldlt : MatrixXd → VectorXd → VectorXd) (eval : VectorXd → LSDenseEvalData) :
    LSProblem :=
  { error := fun x => (eval x).error
    solveForDelta := fun x damping activeSet => (eval x).solveForDelta ldlt damping activeSet }

/-- The evaluation of the problem `r(x) = x - target` with identity Jacobian. -/
def targetEval (target : VectorXd) (x : VectorXd) : LSDenseEvalData :=
  { _err := VectorXd.sub x target
    _errDer := MatrixXd.Identity target.length target.length }

/-- The solution of `A y = b` for a diagonal matrix `A`, as an LDLT factorisation
(`L = I`, `D = A`) computes it: `y[i] = b[i] / A(i, i)`. -/
def diagSolve (A : MatrixXd) (b : VectorXd) : VectorXd :=
  VectorXd.ofFn A.rows (fun i => VectorXd.coeff b i / A.coeff i i)

/-! ## Instances used in the examples -/

/-- A problem with the constant error `1` whose step is `-1` in every coordinate. -/
def descentProblem : LSProblem :=
  { error := fun _ => 1
    solveForDelta := fun x _ activeSet => (x.map (fun _ => -1), activeSet) }

/-- The solver for `descentProblem` under the bound `x[0] >= 0`, default settings. -/
def descentSolver : LSSolver := LSSolver.new descentProblem [{ index := 0, value := 0, sign := 1 }]

/-- A solver in one variable with the contradictory bounds `x[0] >= 1` and `x[0] <= 0`. -/
def contradictorySolver : LSSolver :=
  LSSolver.new descentProblem
    [{ index := 0, value := 1, sign := 1 }, { index := 0, value := 0, sign := -1 }]

/-- A solver in one variable with the two lower bounds `x[0] >= 1` and `x[0] >= 2`. -/
def doubleBoundSolver : LSSolver :=
  LSSolver.new descentProblem
    [{ index := 0, value := 1, sign := 1 }, { index := 0, value := 2, sign := 1 }]

/-! ## Notions used to state the properties of `solveForDelta` -/

/-- The vector `y` solves the linear system `M y = b`. -/
def IsSolution (M : MatrixXd) (y b : VectorXd) : Prop :=
  ∀ a, a < M.rows →
    sumTo M.cols (fun c => M.coeff a c * VectorXd.coeff y c) = VectorXd.coeff b a

/-- The matrix `Identity(lhs.cols(), lhs.cols()) * damping + lhs.transpose() * lhs` that
`solveForDelta` hands to the LDLT factorisation. -/
def normalMatrix (damping : ℚ) (lhs : MatrixXd) : MatrixXd :=
  ((MatrixXd.Identity lhs.cols lhs.cols).smul damping).add (lhs.transpose.mul lhs)

/-- The matrix `lhs` that `solveForDelta` builds for a non-empty active set. -/
def restrictedLhs (d : LSDenseEvalData) (constraints : List LSBoxConstraint) : MatrixXd :=
  LSDenseEvalData.gatherLoop d._errDer
    (LSDenseEvalData.markIndices constraints (List.replicate d._errDer.cols false)) 0 0
    (MatrixXd.uninit d._errDer.rows (d._errDer.cols - constraints.length))

/-- The free indices `F`: the indices below `n` that carry no constraint of the active set,
in increasing order. -/
def freeIndices (n : Nat) (activeSet : List LSBoxConstraint) : List Nat :=
  (List.range n).filter (fun i => activeSet.all (fun c => decide (c.index ≠ i)))

/-- The gradient `g = J^T (J delta + r)` of the specification, at the index `i`. -/
def gradientAt (d : LSDenseEvalData) (delta : VectorXd) (i : Nat) : ℚ :=
  sumTo d._errDer.rows (fun row => d._errDer.coeff row i *
    (sumTo d._errDer.cols (fun col => d._errDer.coeff row col * VectorXd.coeff delta col) +
      VectorXd.coeff d._err row))

/-- The restricted system of the specification, `(damping * I_k + J_F^T J_F) y = -J_F^T r`,
where `F` lists the free indices, `k` is their number, and `y j` is the unknown of the
`j`-th free index. -/
def SolvesRestricted (d : LSDenseEvalData) (damping : ℚ) (F : List Nat) (y : Nat → ℚ) : Prop :=
  ∀ a, a < F.length →
    sumTo F.length (fun b =>
      (damping * (if a = b then 1 else 0) +
        sumTo d._errDer.rows (fun row =>
          d._errDer.coeff row (F.getD a 0) * d._errDer.coeff row (F.getD b 0))) * y b) =
    -sumTo d._errDer.rows (fun row => d._errDer.coeff row (F.getD a 0) * VectorXd.coeff d._err row)

/-- The indices `i, i + 1, ...` whose flag is `false`, in increasing order. -/
def freeOf : List Bool → Nat → List Nat
  | [], _ => []
  | true :: flags, i => freeOf flags (i + 1)
  | false :: flags, i => i :: freeOf flags (i + 1)

/-- The vector `out` that `solveForDelta` builds for a non-empty active set. -/
def restrictedOut (ldlt : MatrixXd → VectorXd → VectorXd) (d : LSDenseEvalData) (damping : ℚ)
    (constraints : List LSBoxConstraint) : VectorXd :=
  if d._errDer.cols > constraints.length then
    LSDenseEvalData.scatterLoop
      (ldlt (normalMatrix damping (restrictedLhs d constraints))
        ((restrictedLhs d constraints).transpose.mulVec (VectorXd.neg d._err)))
      (LSDenseEvalData.markIndices constraints (List.replicate d._errDer.cols false)) 0 0
      (VectorXd.Zero d._errDer.cols)
  else
    VectorXd.Zero d._errDer.cols

/-! ## Notions used to state convergence -/

/-- The solver for `r(x) = x - target` (identity Jacobian) with the factorisation `ldlt`,
the given constraints and settings. -/
def targetSolverWith (ldlt : MatrixXd → VectorXd → VectorXd)
    (constraints : List LSBoxConstraint) (target : VectorXd) (damping : ℚ) (maxIter : Int) :
    LSSolver :=
  { _problem := denseProblem ldlt (targetEval target)
    _constraints := constraints
    _damping := damping
    _maxIter := maxIter }

/-- The solver for `r(x) = x - target` with the given settings and no constraint; the
factorisation is `diagSolve`, the matrix `damping * I + I^T I` being diagonal. -/
def targetSolver (target : VectorXd) (damping : ℚ) (maxIter : Int) : LSSolver :=
  targetSolverWith diagSolve [] target damping maxIter

/-! ## Notions used to state that the damped system is well posed -/

/-- The quadratic form `y^T M y`. -/
def quadForm (M : MatrixXd) (y : VectorXd) : ℚ :=
  sumTo M.rows (fun a =>
    VectorXd.coeff y a * sumTo M.cols (fun b => M.coeff a b * VectorXd.coeff y b))

/-- The matrix `M` is square and symmetric. -/
def IsSymmetric (M : MatrixXd) : Prop :=
  M.rows = M.cols ∧ ∀ a b, a < M.rows → b < M.rows → M.coeff a b = M.coeff b a

/-- The matrix `M` is symmetric positive definite: `y^T M y > 0` for every vector `y` of its
size that is not zero. -/
def IsPosDef (M : MatrixXd) : Prop :=
  IsSymmetric M ∧
    ∀ y : VectorXd, y.length = M.cols → (∃ a, a < M.cols ∧ VectorXd.coeff y a ≠ 0) →
      0 < quadForm M y

/-! ## The active-set invariant -/

/-- What `LSSolver::solve` does with the evaluation state: `createEvalData()` and
`delete evalData`. -/
inductive HeapEvent where
  | createEvalData
  | deleteEvalData
  deriving DecidableEq

/-- The heap events of `LSSolver::solve`, in order: the evaluation state is created before
the loop; the `return x` inside the loop leaves the function at once; the exit after the loop
passes `delete evalData`. -/
def LSSolver.solveHeap (S : LSSolver) (guess : VectorXd) : List HeapEvent :=
  match LSSolver.loop S S._maxIter.toNat (S.initState guess) [] with
  | LSSolver.Outcome.returned _ _ => [HeapEvent.createEvalData]
  | LSSolver.Outcome.finished _ _ => [HeapEvent.createEvalData, HeapEvent.deleteEvalData]

/-- The number of times `solve` disposes of its evaluation state. -/
def LSSolver.disposals (S : LSSolver) (guess : VectorXd) : Nat :=
  (S.solveHeap guess).count HeapEvent.deleteEvalData

/-! ## `VectorC`: a vector with possibly circular access (`VectorC.h`)

The C++ type `int` is modelled by `ℤ`: sizes and indices are taken to stay inside the range
of `int`, so no wrap-around occurs. The operator `%` of C++ truncates towards zero: it is
`Int.tmod`. -/

/-- The enumeration `CircularType`. -/
inductive CircularType where
  | NOT_CIRCULAR
  | CIRCULAR
  deriving DecidableEq

/-- The class `VectorC<T>`: the inherited `std::vector` and the member `_circular`. -/
structure VectorC (T : Type) where
  base : List T
  _circular : CircularType

namespace VectorC

/-- `size()` of the inherited vector, as an `int`. -/
def size {T : Type} (v : VectorC T) : Int := (v.base.length : Int)

/-- `VectorC::toLinearIdx`. -/
def toLinearIdx {T : Type} (v : VectorC T) (idx : Int) : Int :=
  if v._circular = CircularType.NOT_CIRCULAR then idx
  else
    let out := Int.tmod idx v.size
    if out ≥ 0 then out
    else out + v.size

/-- The access `Base::operator[](k)` to the linear index `k` of the inherited vector: `none`
stands for an access outside the vector (undefined in C++). -/
def baseAt {T : Type} (v : VectorC T) (k : Int) : Option T :=
  if 0 ≤ k then v.base[k.toNat]? else none

/-- `VectorC::operator[]`. -/
def get {T : Type} (v : VectorC T) (idx : Int) : Option T := v.baseAt (v.toLinearIdx idx)

/-- `VectorC::flatAt`. -/
def flatAt {T : Type} (v : VectorC T) (idx : Int) : Option T := v.baseAt idx

/-- `VectorC::endIdx`. -/
def endIdx {T : Type} (v : VectorC T) (offset : Int) : Int :=
  if v._circular ≠ CircularType.NOT_CIRCULAR then v.size else max 0 (v.size - offset)

end VectorC

/-- The class `VectorC<T>::Circulator`: the vector pointed to, the current index and the
index of the start. -/
structure Circulator (T : Type) where
  _ptr : VectorC T
  _idx : Int
  _startIdx : Int

namespace Circulator

/-- The public constructor `Circulator(ptr, idx)`. -/
def new {T : Type} (ptr : VectorC T) (idx : Int) : Circulator T :=
  { _ptr := ptr, _idx := idx, _startIdx := idx }

/-- `Circulator::operator++`. -/
def incr {T : Type} (c : Circulator T) : Circulator T := { c with _idx := c._idx + 1 }

/-- `Circulator::operator--`. -/
def decr {T : Type} (c : Circulator T) : Circulator T := { c with _idx := c._idx - 1 }

/-- `Circulator::done`; `abs` of an `int` is `Int.natAbs`. -/
def done {T : Type} (c : Circulator T) : Bool :=
  if c._ptr._circular ≠ CircularType.NOT_CIRCULAR then
    decide (((c._idx - c._startIdx).natAbs : Int) ≥ c._ptr.size)
  else
    decide (c._idx < 0 ∨ c._idx ≥ c._ptr.size)

/-- `Circulator::index`. -/
def index {T : Type} (c : Circulator T) : Int := c._ptr.toLinearIdx c._idx

/-- The loop `for(; !c.done(); step(c)) visit(c.index())`, returning the visited indices in
order; `none` when the fuel runs out before `done()` holds. -/
def traverse {T : Type} (step : Circulator T → Circulator T) :
    Nat → Circulator T → Option (List Int)
  | 0, _ => none
  | fuel + 1, c =>
    if c.done then some []
    else (traverse step fuel (step c)).map (fun l => c.index :: l)

end Circulator

/-- `VectorC::begin`. -/
def VectorC.begin {T : Type} (v : VectorC T) : Circulator T := Circulator.new v 0

/-- `VectorC::circulator`. -/
def VectorC.circulator {T : Type} (v : VectorC T) (idx : Int) : Circulator T :=
  Circulator.new v (v.toLinearIdx idx)

end Cornu

namespace Cornu

/-! ## Lemmas on vectors -/

namespace VectorXd

theorem coeff_setCoeff (x : VectorXd) (i j : Nat) (a : ℚ) :
    coeff (setCoeff x i a) j = if i = j ∧ i < x.length then a else coeff x j := by
  simp only [coeff, setCoeff, List.getD_eq_getElem?_getD, List.getElem?_set]
  by_cases h : i = j
  · subst h
    by_cases h2 : i < x.length
    · simp [h2]
    · simp [h2, List.getElem?_eq_none (not_lt.mp h2)]
  · simp [h]

theorem length_setCoeff (x : VectorXd) (i : Nat) (a : ℚ) :
    (setCoeff x i a).length = x.length := by
  simp [setCoeff]

theorem length_add (x d : VectorXd) (h : d.length = x.length) :
    (add x d).length = x.length := by
  simp [add, h]

end VectorXd

/-! ## Lemmas on constraint sets -/

theorem mem_setInsert_self (c : LSBoxConstraint) (s : List LSBoxConstraint)
    (h : ∀ a ∈ s, a.index ≠ c.index) : c ∈ setInsert c s := by
  induction s with
  | nil => simp [setInsert]
  | cons a s ih =>
    have ha : a.index ≠ c.index := h a (List.mem_cons_self a s)
    have hs : ∀ b ∈ s, b.index ≠ c.index := fun b hb => h b (List.mem_cons_of_mem a hb)
    unfold setInsert
    by_cases h1 : c.index < a.index
    · simp [h1]
    · have h2 : a.index < c.index := lt_of_le_of_ne (not_lt.mp h1) ha
      simp [h1, h2, ih hs]

theorem mem_setInsert_of_mem (c a : LSBoxConstraint) (s : List LSBoxConstraint)
    (h : a ∈ s) : a ∈ setInsert c s := by
  induction s with
  | nil => simp at h
  | cons b s ih =>
    unfold setInsert
    by_cases h1 : c.index < b.index
    · simp only [h1, if_true]
      exact List.mem_cons_of_mem c h
    · by_cases h2 : b.index < c.index
      · simp only [h1, h2, if_true, if_false]
        rcases List.mem_cons.mp h with hab | hab
        · simp [hab]
        · exact List.mem_cons_of_mem b (ih hab)
      · simp only [h1, h2, if_false]
        exact h

theorem eq_or_mem_of_mem_setInsert (c a : LSBoxConstraint) (s : List LSBoxConstraint)
    (h : a ∈ setInsert c s) : a = c ∨ a ∈ s := by
  induction s with
  | nil => simpa [setInsert] using h
  | cons b s ih =>
    unfold setInsert at h
    by_cases h1 : c.index < b.index
    · simp only [h1, if_true] at h
      rcases List.mem_cons.mp h with hab | hab
      · exact Or.inl hab
      · exact Or.inr hab
    · by_cases h2 : b.index < c.index
      · simp only [h1, h2, if_true, if_false] at h
        rcases List.mem_cons.mp h with hab | hab
        · exact Or.inr (by simp [hab])
        · rcases ih hab with h3 | h3
          · exact Or.inl h3
          · exact Or.inr (List.mem_cons_of_mem b h3)
      · simp only [h1, h2, if_false] at h
        exact Or.inr h

theorem exists_index_mem_setInsert (c : LSBoxConstraint) (s : List LSBoxConstraint) :
    ∃ a ∈ setInsert c s, a.index = c.index := by
  induction s with
  | nil => exact ⟨c, by simp [setInsert], rfl⟩
  | cons b s ih =>
    unfold setInsert
    by_cases h1 : c.index < b.index
    · exact ⟨c, by simp [h1], rfl⟩
    · by_cases h2 : b.index < c.index
      · obtain ⟨a, ha, hai⟩ := ih
        exact ⟨a, by simp [h1, h2, ha], hai⟩
      · exact ⟨b, by simp [h1, h2], by omega⟩

end Cornu

namespace Cornu

theorem mem_setInsert_iff (c a : LSBoxConstraint) (s : List LSBoxConstraint)
    (h : ∀ b ∈ s, b.index ≠ c.index) : a ∈ setInsert c s ↔ a = c ∨ a ∈ s := by
  constructor
  · exact eq_or_mem_of_mem_setInsert c a s
  · rintro (h1 | h1)
    · rw [h1]; exact mem_setInsert_self c s h
    · exact mem_setInsert_of_mem c a s h1

/-! ## Sign arithmetic -/

theorem nonneg_of_pos_mul {s t : ℚ} (hs : 0 < s) (h : 0 ≤ s * t) : 0 ≤ t := by
  by_contra ht
  have := mul_neg_of_pos_of_neg hs (not_le.mp ht)
  linarith

theorem nonpos_of_neg_mul {s t : ℚ} (hs : s < 0) (h : 0 ≤ s * t) : t ≤ 0 := by
  by_contra ht
  have := mul_neg_of_neg_of_pos hs (not_le.mp ht)
  linarith

theorem neg_of_pos_mul {s t : ℚ} (hs : 0 < s) (h : t * s < 0) : t < 0 := by
  by_contra ht
  have := mul_nonneg (not_lt.mp ht) hs.le
  linarith

theorem pos_of_neg_mul {s t : ℚ} (hs : s < 0) (h : t * s < 0) : 0 < t := by
  by_contra ht
  have := mul_nonneg_of_nonpos_of_nonpos (not_lt.mp ht) hs.le
  linarith

/-- A bound `vc` that the feasible point `yi` respects and the coordinate `xi` violates
satisfies every bound that both `xi` and `yi` respect. -/
theorem clamp_key (sc sd xi yi vc vd : ℚ) (h1 : 0 ≤ sd * (xi - vd)) (h2 : 0 ≤ sd * (yi - vd))
    (h3 : 0 ≤ sc * (yi - vc)) (h4 : (xi - vc) * sc < 0) : 0 ≤ sd * (vc - vd) := by
  rcases lt_trichotomy sc 0 with hsc | hsc | hsc
  · have hx := pos_of_neg_mul hsc h4
    have hy := nonpos_of_neg_mul hsc h3
    rcases lt_trichotomy sd 0 with hsd | hsd | hsd
    · have := nonpos_of_neg_mul hsd h1
      exact mul_nonneg_of_nonpos_of_nonpos hsd.le (by linarith)
    · simp [hsd]
    · have := nonneg_of_pos_mul hsd h2
      exact mul_nonneg hsd.le (by linarith)
  · simp [hsc] at h4
  · have hx := neg_of_pos_mul hsc h4
    have hy := nonneg_of_pos_mul hsc h3
    rcases lt_trichotomy sd 0 with hsd | hsd | hsd
    · have := nonpos_of_neg_mul hsd h2
      exact mul_nonneg_of_nonpos_of_nonpos hsd.le (by linarith)
    · simp [hsd]
    · have := nonneg_of_pos_mul hsd h1
      exact mul_nonneg hsd.le (by linarith)

/-! ## `_clamp` -/

namespace LSSolver

theorem violatedAt_iff_not_holdsAt (c : LSBoxConstraint) (x : VectorXd) :
    c.violatedAt x ↔ ¬ c.holdsAt x := by
  unfold LSBoxConstraint.violatedAt LSBoxConstraint.holdsAt
  rw [mul_comm, not_le]

theorem clampLoop_length (cs : List LSBoxConstraint) (x : VectorXd)
    (out : List LSBoxConstraint) : (clampLoop cs x out).1.length = x.length := by
  induction cs generalizing x out with
  | nil => rfl
  | cons c cs ih =>
    unfold clampLoop
    split
    · rw [ih, VectorXd.length_setCoeff]
    · exact ih x out

theorem clampLoop_coeff_of_ne (cs : List LSBoxConstraint) (x : VectorXd)
    (out : List LSBoxConstraint) (j : Nat) (h : ∀ c ∈ cs, c.violatedAt x → c.index ≠ j)
    (hd : cs.Pairwise (fun a b => a.index ≠ b.index)) :
    VectorXd.coeff (clampLoop cs x out).1 j = VectorXd.coeff x j := by
  induction cs generalizing x out with
  | nil => rfl
  | cons c cs ih =>
    have hc : ∀ d ∈ cs, c.index ≠ d.index := fun d hdm => List.rel_of_pairwise_cons hd hdm
    have hd2 := List.Pairwise.of_cons hd
    unfold clampLoop
    split
    · rename_i hv
      have hcj : c.index ≠ j := h c (List.mem_cons_self c cs) hv
      rw [ih _ _ _ hd2, VectorXd.coeff_setCoeff]
      · simp [hcj]
      · intro d hdm hvd
        apply h d (List.mem_cons_of_mem c hdm)
        unfold LSBoxConstraint.violatedAt at hvd ⊢
        rw [VectorXd.coeff_setCoeff] at hvd
        simpa [hc d hdm] using hvd
    · exact ih x out (fun d hdm => h d (List.mem_cons_of_mem c hdm)) hd2

theorem clampLoop_coeff_cases (cs : List LSBoxConstraint) (x : VectorXd)
    (out : List LSBoxConstraint) (j : Nat) :
    VectorXd.coeff (clampLoop cs x out).1 j = VectorXd.coeff x j ∨
      ∃ c ∈ cs, c.index = j ∧ VectorXd.coeff (clampLoop cs x out).1 j = c.value := by
  induction cs generalizing x out with
  | nil => exact Or.inl rfl
  | cons c cs ih =>
    unfold clampLoop
    split
    · rcases ih (VectorXd.setCoeff x c.index c.value) (setInsert c out) with h | ⟨d, hd, hdj, hdv⟩
      · rw [VectorXd.coeff_setCoeff] at h
        by_cases hc : c.index = j ∧ c.index < x.length
        · rw [if_pos hc] at h
          exact Or.inr ⟨c, List.mem_cons_self c cs, hc.1, h⟩
        · rw [if_neg hc] at h
          exact Or.inl h
      · exact Or.inr ⟨d, List.mem_cons_of_mem c hd, hdj, hdv⟩
    · rcases ih x out with h | ⟨d, hd, hdj, hdv⟩
      · exact Or.inl h
      · exact Or.inr ⟨d, List.mem_cons_of_mem c hd, hdj, hdv⟩

theorem clampLoop_feasible (cs done : List LSBoxConstraint) (x y : VectorXd)
    (out : List LSBoxConstraint) (hidx : ∀ c ∈ cs, c.index < x.length)
    (hy : ∀ c ∈ done ++ cs, c.holdsAt y) (hx : ∀ c ∈ done, c.holdsAt x) :
    ∀ c ∈ done ++ cs, c.holdsAt (clampLoop cs x out).1 := by
  induction cs generalizing x out done with
  | nil => simpa [clampLoop] using hx
  | cons c cs ih =>
    have hci : c.index < x.length := hidx c (List.mem_cons_self c cs)
    have key : ∀ x1 out1, x1.length = x.length → (∀ d ∈ done ++ [c], d.holdsAt x1) →
        ∀ d ∈ done ++ c :: cs, d.holdsAt (clampLoop cs x1 out1).1 := by
      intro x1 out1 hl h1
      have := ih (done ++ [c]) x1 out1
        (fun d hd => hl ▸ hidx d (List.mem_cons_of_mem c hd))
        (by simpa using hy) h1
      simpa using this
    unfold clampLoop
    split
    · rename_i hv
      apply key _ _ (VectorXd.length_setCoeff _ _ _)
      intro d hd
      unfold LSBoxConstraint.holdsAt
      rw [VectorXd.coeff_setCoeff]
      rcases List.mem_append.mp hd with hd | hd
      · by_cases hdi : c.index = d.index
        · simp only [hdi, true_and, hdi ▸ hci, if_true]
          have h1 := hx d hd
          have h2 := hy d (List.mem_append_left _ hd)
          have h3 := hy c (List.mem_append_right _ (List.mem_cons_self c cs))
          unfold LSBoxConstraint.holdsAt at h1 h2 h3
          rw [← hdi] at h1 h2
          exact clamp_key _ _ _ _ _ _ h1 h2 h3 hv
        · simpa [hdi] using hx d hd
      · have hdc : d = c := by simpa using hd
        subst hdc
        simp [hci]
    · rename_i hv
      apply key _ _ rfl
      intro d hd
      rcases List.mem_append.mp hd with hd | hd
      · exact hx d hd
      · have hdc : d = c := by simpa using hd
        subst hdc
        unfold LSBoxConstraint.holdsAt
        rw [mul_comm]
        exact not_lt.mp hv

theorem clampLoop_mem (cs : List LSBoxConstraint) (x : VectorXd) (out : List LSBoxConstraint)
    (hd : cs.Pairwise (fun a b => a.index ≠ b.index))
    (ho : ∀ c ∈ cs, ∀ b ∈ out, b.index ≠ c.index) (a : LSBoxConstraint) :
    a ∈ (clampLoop cs x out).2 ↔ a ∈ out ∨ (a ∈ cs ∧ a.violatedAt x) := by
  induction cs generalizing x out with
  | nil => simp [clampLoop]
  | cons c cs ih =>
    have hc : ∀ d ∈ cs, c.index ≠ d.index := fun d hdm => List.rel_of_pairwise_cons hd hdm
    have hd2 := List.Pairwise.of_cons hd
    have hoc : ∀ b ∈ out, b.index ≠ c.index := ho c (List.mem_cons_self c cs)
    unfold clampLoop
    split
    · rename_i hv
      have hv2 : c.violatedAt x := hv
      rw [ih _ _ hd2]
      · rw [mem_setInsert_iff c a out hoc]
        have htr : ∀ d ∈ cs, (d.violatedAt (VectorXd.setCoeff x c.index c.value) ↔
            d.violatedAt x) := by
          intro d hdm
          unfold LSBoxConstraint.violatedAt
          rw [VectorXd.coeff_setCoeff]
          simp [hc d hdm]
        constructor
        · rintro ((h | h) | ⟨h1, h2⟩)
          · exact Or.inr ⟨by simp [h], h ▸ hv2⟩
          · exact Or.inl h
          · exact Or.inr ⟨List.mem_cons_of_mem c h1, (htr a h1).mp h2⟩
        · rintro (h | ⟨h1, h2⟩)
          · exact Or.inl (Or.inr h)
          · rcases List.mem_cons.mp h1 with h3 | h3
            · exact Or.inl (Or.inl h3)
            · exact Or.inr ⟨h3, (htr a h3).mpr h2⟩
      · intro d hdm b hb
        rcases eq_or_mem_of_mem_setInsert c b out hb with h | h
        · rw [h]; exact hc d hdm
        · exact ho d (List.mem_cons_of_mem c hdm) b h
    · rename_i hv
      have hv2 : ¬ c.violatedAt x := hv
      rw [ih _ _ hd2 (fun d hdm => ho d (List.mem_cons_of_mem c hdm))]
      constructor
      · rintro (h | ⟨h1, h2⟩)
        · exact Or.inl h
        · exact Or.inr ⟨List.mem_cons_of_mem c h1, h2⟩
      · rintro (h | ⟨h1, h2⟩)
        · exact Or.inl h
        · rcases List.mem_cons.mp h1 with h3 | h3
          · exact absurd (h3 ▸ h2) hv2
          · exact Or.inr ⟨h3, h2⟩

theorem clampLoop_coeff_of_violated (cs : List LSBoxConstraint) (x : VectorXd)
    (out : List LSBoxConstraint) (hd : cs.Pairwise (fun a b => a.index ≠ b.index))
    (hidx : ∀ c ∈ cs, c.index < x.length) (c : LSBoxConstraint) (hc : c ∈ cs)
    (hv : c.violatedAt x) : VectorXd.coeff (clampLoop cs x out).1 c.index = c.value := by
  induction cs generalizing x out with
  | nil => simp at hc
  | cons d cs ih =>
    have hdc : ∀ e ∈ cs, d.index ≠ e.index := fun e he => List.rel_of_pairwise_cons hd he
    have hd2 := List.Pairwise.of_cons hd
    have hdi : d.index < x.length := hidx d (List.mem_cons_self d cs)
    have hidx2 : ∀ e ∈ cs, e.index < x.length := fun e he => hidx e (List.mem_cons_of_mem d he)
    rcases List.mem_cons.mp hc with h | h
    · subst h
      unfold clampLoop
      have hv2 : (VectorXd.coeff x c.index - c.value) * (c.sign : ℚ) < 0 := hv
      rw [if_pos hv2, clampLoop_coeff_of_ne _ _ _ _ (fun e he _ => (hdc e he).symm) hd2,
        VectorXd.coeff_setCoeff]
      simp [hdi]
    · unfold clampLoop
      split
      · apply ih _ _ hd2 (fun e he => by rw [VectorXd.length_setCoeff]; exact hidx2 e he) h
        unfold LSBoxConstraint.violatedAt at hv ⊢
        rw [VectorXd.coeff_setCoeff]
        simpa [hdc c h] using hv
      · exact ih _ _ hd2 hidx2 h hv

end LSSolver

end Cornu

namespace Cornu

/-! ## `_project` -/

namespace LSSolver

end LSSolver

end Cornu

namespace Cornu

namespace LSSolver

end LSSolver

end Cornu

namespace Cornu

namespace LSSolver

/-! ## One step keeps the point feasible -/

theorem length_project (S : LSSolver) (x delta : VectorXd) :
    (S._project x delta).2.length = delta.length := by
  unfold _project
  simp only []
  split <;> simp [VectorXd.scale]

theorem length_advance (S : LSSolver) (x : VectorXd) (A : List LSBoxConstraint)
    (hlen : (S._problem.solveForDelta x S._damping A).1.length = x.length) :
    (S.advance x A).1.length = x.length := by
  unfold advance
  simp only []
  rw [VectorXd.length_add]
  rw [length_project, hlen]

end LSSolver

end Cornu

namespace Cornu

namespace LSSolver

/-! ## The loop of `solve` -/

theorem loop_succ (S : LSSolver) (n : Nat) (s : SolveState) (log : List Event) :
    loop S (n + 1) s log =
      if S._problem.error s.x < s.bestError then
        if S._problem.error s.x < 1 / 10 ^ 8 then
          Outcome.returned s.x (log ++ [Event.eval s.x])
        else
          loop S n { x := (S.advance s.x s.activeSet).1, activeSet := (S.advance s.x s.activeSet).2,
                     best := s.x, bestError := S._problem.error s.x }
            (log ++ [Event.eval s.x] ++ [Event.solveForDelta, Event.project])
      else
        loop S n { x := (S.advance s.x s.activeSet).1, activeSet := (S.advance s.x s.activeSet).2,
                   best := s.best, bestError := s.bestError }
          (log ++ [Event.eval s.x] ++ [Event.solveForDelta, Event.project]) := by
  rw [loop]
  unfold body
  simp only []
  split_ifs <;> rfl

theorem mem_evaluated (S : LSSolver) (guess x : VectorXd) :
    x ∈ S.evaluated guess ↔ Event.eval x ∈ (S.solveLog guess).2 := by
  unfold evaluated
  rw [List.mem_filterMap]
  constructor
  · rintro ⟨e, he, hx⟩
    cases e with
    | eval y =>
      simp only [Option.some.injEq] at hx
      rw [← hx]; exact he
    | solveForDelta => simp at hx
    | project => simp at hx
  · intro h
    exact ⟨Event.eval x, h, rfl⟩

theorem eval_mem_step {log : List Event} {x y : VectorXd}
    (h : Event.eval y ∈ log ++ [Event.eval x] ++ [Event.solveForDelta, Event.project]) :
    Event.eval y ∈ log ∨ y = x := by
  simp only [List.mem_append, List.mem_cons, List.mem_singleton, Event.eval.injEq,
    List.mem_nil_iff, or_false] at h
  rcases h with (h | h) | h
  · exact Or.inl h
  · exact Or.inr h
  · rcases h with h | h <;> cases h

theorem eval_mem_snoc {log : List Event} {x y : VectorXd}
    (h : Event.eval y ∈ log ++ [Event.eval x]) : Event.eval y ∈ log ∨ y = x := by
  simp only [List.mem_append, List.mem_singleton, Event.eval.injEq] at h
  exact h

/-- A property of points that `advance` keeps holds at every point the loop evaluates. -/
theorem loop_points (S : LSSolver) (Q : VectorXd → Prop)
    (hadv : ∀ x A, Q x → Q (S.advance x A).1) (n : Nat) (s : SolveState) (log : List Event)
    (hs : Q s.x) (hlog : ∀ y, Event.eval y ∈ log → Q y) :
    match loop S n s log with
    | Outcome.returned _ log1 => ∀ y, Event.eval y ∈ log1 → Q y
    | Outcome.finished s1 log1 => Q s1.x ∧ ∀ y, Event.eval y ∈ log1 → Q y := by
  induction n generalizing s log with
  | zero => exact ⟨hs, hlog⟩
  | succ n ih =>
    have hlog2 : ∀ y, Event.eval y ∈ log ++ [Event.eval s.x] ++
        [Event.solveForDelta, Event.project] → Q y := by
      intro y hy
      rcases eval_mem_step hy with h | h
      · exact hlog y h
      · rw [h]; exact hs
    rw [loop_succ]
    split_ifs
    · intro y hy
      rcases eval_mem_snoc hy with h | h
      · exact hlog y h
      · rw [h]; exact hs
    · exact ih _ _ (hadv _ _ hs) hlog2
    · exact ih _ _ (hadv _ _ hs) hlog2

theorem evaluated_points (S : LSSolver) (Q : VectorXd → Prop)
    (hadv : ∀ x A, Q x → Q (S.advance x A).1) (guess : VectorXd)
    (h0 : Q (S._clamp guess).1) : ∀ x ∈ S.evaluated guess, Q x := by
  intro x hx
  rw [mem_evaluated] at hx
  have h := loop_points S Q hadv S._maxIter.toNat (S.initState guess) [] h0 (by simp)
  unfold solveLog at hx
  revert h hx
  cases loop S S._maxIter.toNat (S.initState guess) [] with
  | returned y log1 =>
    intro hx h
    exact h x hx
  | finished s1 log1 =>
    intro hx h
    simp only [] at hx h
    split_ifs at hx
    · rcases eval_mem_snoc hx with h1 | h1
      · exact h.2 x h1
      · rw [h1]; exact h.1
    · rcases eval_mem_snoc hx with h1 | h1
      · exact h.2 x h1
      · rw [h1]; exact h.1

/-- The early exit: no point evaluated before the last one has an error below `1e-8`. -/
theorem loop_early (S : LSSolver) (n : Nat) (s : SolveState) (log : List Event)
    (hs : 1 / 10 ^ 8 ≤ s.bestError)
    (hlog : ∀ y, Event.eval y ∈ log → 1 / 10 ^ 8 ≤ S._problem.error y) :
    match loop S n s log with
    | Outcome.returned x log1 => ∃ pre, log1 = pre ++ [Event.eval x] ∧
        (∀ y, Event.eval y ∈ pre → 1 / 10 ^ 8 ≤ S._problem.error y)
    | Outcome.finished s1 log1 => 1 / 10 ^ 8 ≤ s1.bestError ∧
        ∀ y, Event.eval y ∈ log1 → 1 / 10 ^ 8 ≤ S._problem.error y := by
  induction n generalizing s log with
  | zero => exact ⟨hs, hlog⟩
  | succ n ih =>
    rw [loop_succ]
    split_ifs with h1 h2
    · exact ⟨log, rfl, hlog⟩
    · apply ih
      · exact not_lt.mp h2
      · intro y hy
        rcases eval_mem_step hy with h | h
        · exact hlog y h
        · rw [h]; exact not_lt.mp h2
    · apply ih
      · exact hs
      · intro y hy
        rcases eval_mem_step hy with h | h
        · exact hlog y h
        · rw [h]; exact le_trans hs (not_lt.mp h1)

theorem solveLog_early (S : LSSolver) (guess : VectorXd) :
    ∃ pre xl, (S.solveLog guess).2 = pre ++ [Event.eval xl] ∧
      (∀ y, Event.eval y ∈ pre → 1 / 10 ^ 8 ≤ S._problem.error y) ∧
      (S._problem.error xl < 1 / 10 ^ 8 → (S.solveLog guess).1 = xl) := by
  have h := loop_early S S._maxIter.toNat (S.initState guess) []
    (by simp only [initState]; norm_num) (by simp)
  unfold solveLog
  revert h
  cases loop S S._maxIter.toNat (S.initState guess) [] with
  | returned y log1 =>
    rintro ⟨pre, h1, h2⟩
    exact ⟨pre, y, h1, h2, fun _ => rfl⟩
  | finished s1 log1 =>
    rintro ⟨h1, h2⟩
    simp only []
    split_ifs with h3
    · exact ⟨log1, s1.x, rfl, h2, fun _ => rfl⟩
    · exact ⟨log1, s1.x, rfl, h2, fun h4 => absurd (lt_of_lt_of_le h4 h1) h3⟩

/-- The invariant of best-tracking. -/
theorem loop_best (S : LSSolver) (n : Nat) (s : SolveState) (log : List Event)
    (h1 : s.bestError ≤ 10 ^ 100)
    (h2 : ∀ y, Event.eval y ∈ log → s.bestError ≤ S._problem.error y)
    (h3 : s.bestError < 10 ^ 100 →
      Event.eval s.best ∈ log ∧ S._problem.error s.best = s.bestError)
    (h4 : s.bestError = 10 ^ 100 → s.best = []) :
    match loop S n s log with
    | Outcome.returned x log1 => Event.eval x ∈ log1 ∧
        ∀ y, Event.eval y ∈ log1 → S._problem.error x ≤ S._problem.error y
    | Outcome.finished s1 log1 => s1.bestError ≤ 10 ^ 100 ∧
        (∀ y, Event.eval y ∈ log1 → s1.bestError ≤ S._problem.error y) ∧
        (s1.bestError < 10 ^ 100 →
          Event.eval s1.best ∈ log1 ∧ S._problem.error s1.best = s1.bestError) ∧
        (s1.bestError = 10 ^ 100 → s1.best = []) := by
  induction n generalizing s log with
  | zero => exact ⟨h1, h2, h3, h4⟩
  | succ n ih =>
    rw [loop_succ]
    split_ifs with c1 c2
    · refine ⟨by simp, ?_⟩
      intro y hy
      rcases eval_mem_snoc hy with h | h
      · exact le_trans c1.le (h2 y h)
      · rw [h]
    · apply ih
      · exact le_trans c1.le h1
      · intro y hy
        rcases eval_mem_step hy with h | h
        · exact le_trans c1.le (h2 y h)
        · rw [h]
      · intro _
        exact ⟨by simp, rfl⟩
      · intro h
        simp only [] at h
        exact absurd h (ne_of_lt (lt_of_lt_of_le c1 h1))
    · apply ih
      · exact h1
      · intro y hy
        rcases eval_mem_step hy with h | h
        · exact h2 y h
        · rw [h]; exact not_lt.mp c1
      · intro h
        obtain ⟨h5, h6⟩ := h3 h
        exact ⟨by simp [h5], h6⟩
      · exact h4

/-- What `solve` returns with respect to the points it evaluated. -/
theorem solveLog_best (S : LSSolver) (guess : VectorXd) :
    ((S.solveLog guess).1 ∈ S.evaluated guess ∧
      ∀ y ∈ S.evaluated guess, S._problem.error (S.solveLog guess).1 ≤ S._problem.error y) ∨
    ((S.solveLog guess).1 = [] ∧ ∀ y ∈ S.evaluated guess, 10 ^ 100 ≤ S._problem.error y) := by
  have h := loop_best S S._maxIter.toNat (S.initState guess) []
    (by simp only [initState]; norm_num) (by simp)
    (by simp only [initState]; intro h; exact absurd h (lt_irrefl _))
    (by simp only [initState]; intro _; trivial)
  simp only [mem_evaluated]
  unfold solveLog
  revert h
  cases loop S S._maxIter.toNat (S.initState guess) [] with
  | returned x log1 =>
    rintro ⟨h1, h2⟩
    exact Or.inl ⟨h1, h2⟩
  | finished s1 log1 =>
    rintro ⟨h1, h2, h3, h4⟩
    simp only []
    split_ifs with c
    · left
      refine ⟨by simp, ?_⟩
      intro y hy
      rcases eval_mem_snoc hy with h | h
      · exact le_trans c.le (h2 y h)
      · rw [h]
    · rcases lt_or_eq_of_le h1 with h5 | h5
      · left
        obtain ⟨h6, h7⟩ := h3 h5
        refine ⟨by simp [h6], ?_⟩
        intro y hy
        rw [h7]
        rcases eval_mem_snoc hy with h | h
        · exact h2 y h
        · rw [h]; exact not_lt.mp c
      · right
        refine ⟨h4 h5, ?_⟩
        intro y hy
        rcases eval_mem_snoc hy with h | h
        · exact h5 ▸ h2 y h
        · rw [h]; exact h5 ▸ not_lt.mp c

theorem evaluated_ne_nil (S : LSSolver) (guess : VectorXd) : S.evaluated guess ≠ [] := by
  obtain ⟨pre, xl, h, _⟩ := solveLog_early S guess
  have : xl ∈ S.evaluated guess := by
    rw [mem_evaluated, h]
    simp
  exact List.ne_nil_of_mem this

end LSSolver

end Cornu

namespace Cornu

namespace LSSolver

/-! ## The claims on `_clamp` and `_project` -/

/-- C6 (amended): for a guess `x` and a constraint list whose indices lie inside `x`,
`_clamp` keeps the size of `x` and changes a coordinate only to the value of a constraint
on that coordinate; when no two constraints share an index, it sets `x[c.index]` to
`c.value` for each constraint `c` that `x` violates, the returned active set consists of
exactly these constraints, every coordinate that is not the index of a violated constraint
is unchanged, and the result satisfies every constraint; and whenever some point satisfies
all the constraints, so does the result. -/
theorem clamp_spec (S : LSSolver) (x : VectorXd)
    (hidx : ∀ c ∈ S._constraints, c.index < x.length) :
    (S._clamp x).1.length = x.length ∧
    (∀ j, VectorXd.coeff (S._clamp x).1 j = VectorXd.coeff x j ∨
      ∃ c ∈ S._constraints, c.index = j ∧ VectorXd.coeff (S._clamp x).1 j = c.value) ∧
    (S._constraints.Pairwise (fun a b => a.index ≠ b.index) →
      (∀ c ∈ S._constraints, c.violatedAt x →
        VectorXd.coeff (S._clamp x).1 c.index = c.value ∧ c ∈ (S._clamp x).2) ∧
      (∀ a ∈ (S._clamp x).2, a ∈ S._constraints ∧ a.violatedAt x) ∧
      (∀ j, (∀ c ∈ S._constraints, c.violatedAt x → c.index ≠ j) →
        VectorXd.coeff (S._clamp x).1 j = VectorXd.coeff x j) ∧
      (∀ c ∈ S._constraints, c.holdsAt (S._clamp x).1)) ∧
    ((∃ y, ∀ c ∈ S._constraints, c.holdsAt y) →
      ∀ c ∈ S._constraints, c.holdsAt (S._clamp x).1) := by
  unfold _clamp
  refine ⟨clampLoop_length _ _ _, clampLoop_coeff_cases _ _ _, ?_, ?_⟩
  · intro hd
    have hmem := clampLoop_mem S._constraints x [] hd (by simp)
    have hval := clampLoop_coeff_of_violated S._constraints x [] hd hidx
    have hne : ∀ j, (∀ c ∈ S._constraints, c.violatedAt x → c.index ≠ j) →
        VectorXd.coeff (clampLoop S._constraints x []).1 j = VectorXd.coeff x j :=
      fun j hj => clampLoop_coeff_of_ne S._constraints x [] j hj hd
    refine ⟨?_, ?_, hne, ?_⟩
    · intro c hc hv
      exact ⟨hval c hc hv, (hmem c).mpr (Or.inr ⟨hc, hv⟩)⟩
    · intro a ha
      rcases (hmem a).mp ha with h | h
      · simp at h
      · exact h
    · intro c hc
      by_cases hv : c.violatedAt x
      · unfold LSBoxConstraint.holdsAt
        rw [hval c hc hv]
        simp
      · have hh : c.holdsAt x := by
          by_contra h
          exact hv ((violatedAt_iff_not_holdsAt c x).mpr h)
        unfold LSBoxConstraint.holdsAt at hh ⊢
        rw [hne c.index]
        · exact hh
        · intro d hdm hdv hdi
          have hdc : d = c := by
            by_contra hne2
            have hp := hd.forall (fun _ _ h => h.symm)
            exact hp hdm hc hne2 hdi
          exact hv (hdc ▸ hdv)
  · rintro ⟨y, hy⟩
    have := clampLoop_feasible S._constraints [] x y [] hidx (by simpa using hy) (by simp)
    simpa using this

/-- C6, witness: `descentSolver` (the bound `x[0] >= 0`) clamps the guess `[-3]` to `[0]`. -/
theorem clamp_spec_witness :
    (∀ c ∈ descentSolver._constraints, c.index < ([-3] : VectorXd).length) ∧
    (∀ c ∈ descentSolver._constraints, c.holdsAt (descentSolver._clamp [-3]).1) :=
  ⟨by simp [descentSolver, LSSolver.new],
   (clamp_spec descentSolver [-3] (by simp [descentSolver, LSSolver.new])).2.2.2
     ⟨[0], by
       intro c hc
       simp only [descentSolver, LSSolver.new, List.mem_singleton] at hc
       subst hc
       norm_num [LSBoxConstraint.holdsAt, VectorXd.coeff]⟩⟩

/-- C6, counterexample: with the contradictory bounds `x[0] >= 1`, `x[0] <= 0` the guess
`[2]` is clamped to `[0]`, which violates `x[0] >= 1`; with the two bounds `x[0] >= 1`,
`x[0] >= 2` the guess `[0]` violates both when they are visited and ends at `[2]`, but the
returned active set holds only the first of them. -/
theorem clamp_counterexample :
    (contradictorySolver._clamp [2]).1 = [0] ∧
    (⟨0, 1, 1⟩ : LSBoxConstraint) ∈ contradictorySolver._constraints ∧
    ¬ (⟨0, 1, 1⟩ : LSBoxConstraint).holdsAt (contradictorySolver._clamp [2]).1 ∧
    doubleBoundSolver._clamp [0] = ([2], [⟨0, 1, 1⟩]) ∧
    (⟨0, 2, 1⟩ : LSBoxConstraint) ∈ doubleBoundSolver._constraints ∧
    (⟨0, 2, 1⟩ : LSBoxConstraint).violatedAt [1] ∧
    (⟨0, 2, 1⟩ : LSBoxConstraint) ∉ (doubleBoundSolver._clamp [0]).2 := by
  have h1 : (contradictorySolver._clamp [2]) = ([0], [⟨0, 0, -1⟩]) := by
    norm_num [contradictorySolver, LSSolver.new, _clamp, clampLoop, VectorXd.coeff,
      VectorXd.setCoeff, setInsert]
  have h2 : doubleBoundSolver._clamp [0] = ([2], [⟨0, 1, 1⟩]) := by
    norm_num [doubleBoundSolver, LSSolver.new, _clamp, clampLoop, VectorXd.coeff,
      VectorXd.setCoeff, setInsert]
  rw [h1, h2]
  refine ⟨rfl, by simp [contradictorySolver, LSSolver.new], ?_, rfl,
    by simp [doubleBoundSolver, LSSolver.new], ?_, ?_⟩
  · norm_num [LSBoxConstraint.holdsAt, VectorXd.coeff]
  · norm_num [LSBoxConstraint.violatedAt, VectorXd.coeff]
  · simp

end LSSolver

end Cornu

namespace Cornu

namespace LSSolver

/-! ## The claims on `solve` -/

end LSSolver

end Cornu

namespace Cornu

namespace LSSolver

theorem descentSolver_length (x : VectorXd) (A : List LSBoxConstraint) :
    (descentSolver._problem.solveForDelta x descentSolver._damping A).1.length = x.length := by
  simp [descentSolver, LSSolver.new, descentProblem]

/-- C2: one pass of the loop body never increases `bestError`; and when every evaluated
error is below the initial `bestError` `1e100`, the point `solve` returns is one of the
evaluated points and its error is at most the error of every evaluated point (the `x` at
the head of each iteration and the final `x`). -/
theorem best_tracking (S : LSSolver) (guess : VectorXd) :
    (∀ s s1, S.body s = some s1 → s1.bestError ≤ s.bestError) ∧
    ((∀ y ∈ S.evaluated guess, S._problem.error y < 10 ^ 100) →
      S.solve guess ∈ S.evaluated guess ∧
      ∀ y ∈ S.evaluated guess, S._problem.error (S.solve guess) ≤ S._problem.error y) := by
  constructor
  · intro s s1 h
    unfold body at h
    simp only [] at h
    split_ifs at h with c1 c2
    · simp only [Option.some.injEq] at h
      rw [← h]
      exact c1.le
    · simp only [Option.some.injEq] at h
      rw [← h]
  · intro hall
    rcases solveLog_best S guess with h | h
    · exact h
    · exfalso
      obtain ⟨y, hy⟩ := List.exists_mem_of_ne_nil _ (evaluated_ne_nil S guess)
      exact absurd (hall y hy) (not_lt.mpr (h.2 y hy))

/-- C2, witness: `descentSolver`, whose error is `1` at every point. -/
theorem best_tracking_witness :
    (∀ y ∈ descentSolver.evaluated [5 / 2], descentSolver._problem.error y < 10 ^ 100) ∧
    (descentSolver.solve [5 / 2] ∈ descentSolver.evaluated [5 / 2] ∧
      ∀ y ∈ descentSolver.evaluated [5 / 2],
        descentSolver._problem.error (descentSolver.solve [5 / 2]) ≤
          descentSolver._problem.error y) :=
  ⟨fun _ _ => by norm_num [descentSolver, LSSolver.new, descentProblem],
   (best_tracking descentSolver [5 / 2]).2
     (fun _ _ => by norm_num [descentSolver, LSSolver.new, descentProblem])⟩

/-- C3: if the `k`-th call that `solve` makes is the evaluation of a point `x` whose error
is below `1e-8`, then `solve` returns exactly `x` and that call is its last one: no further
evaluation, `solveForDelta` or `_project` follows. This covers the evaluations inside the
loop and the evaluation of the final point after the loop. -/
theorem early_exit (S : LSSolver) (guess : VectorXd) (k : Nat) (x : VectorXd)
    (hk : (S.solveLog guess).2[k]? = some (Event.eval x))
    (herr : S._problem.error x < 1 / 10 ^ 8) :
    S.solve guess = x ∧ (S.solveLog guess).2.length = k + 1 := by
  obtain ⟨pre, xl, h1, h2, h3⟩ := solveLog_early S guess
  rw [h1] at hk
  unfold solve
  rw [h1]
  by_cases hlt : k < pre.length
  · rw [List.getElem?_append_left hlt] at hk
    have hm : Event.eval x ∈ pre := List.getElem?_mem hk
    exact absurd herr (not_lt.mpr (h2 x hm))
  · rw [List.getElem?_append_right (not_lt.mp hlt)] at hk
    have hk0 : k - pre.length = 0 := by
      by_contra hne
      obtain ⟨m, hm⟩ := Nat.exists_eq_succ_of_ne_zero hne
      rw [hm] at hk
      simp at hk
    rw [hk0] at hk
    simp only [List.getElem?_cons_zero, Option.some.injEq, Event.eval.injEq] at hk
    subst hk
    refine ⟨h3 herr, ?_⟩
    simp only [List.length_append, List.length_singleton]
    omega

/-- C3, witness: the solver for `r(x) = x - 1` started at `[1]` returns at once. -/
theorem early_exit_witness :
    ((targetSolver [1] 1 100).solveLog [1]).2[0]? = some (Event.eval [1]) ∧
    (targetSolver [1] 1 100)._problem.error [1] < 1 / 10 ^ 8 ∧
    (targetSolver [1] 1 100).solve [1] = [1] ∧
    ((targetSolver [1] 1 100).solveLog [1]).2.length = 0 + 1 := by
  have he : (targetSolver [1] 1 100)._problem.error [1] = 0 := by
    norm_num [targetSolver, targetSolverWith, denseProblem, targetEval, LSDenseEvalData.error, VectorXd.sub,
      VectorXd.squaredNorm]
  have hb : (targetSolver [1] 1 100).body
      { x := [1], activeSet := [], best := [], bestError := 10 ^ 100 } = none := by
    unfold body
    simp only []
    rw [he]
    norm_num
  have hlog : (targetSolver [1] 1 100).solveLog [1] = ([1], [Event.eval [1]]) := by
    unfold solveLog
    have hc : (targetSolver [1] 1 100).initState [1] =
        { x := [1], activeSet := [], best := [], bestError := 10 ^ 100 } := by
      simp [initState, targetSolver, targetSolverWith, _clamp, clampLoop]
    have hm : (targetSolver [1] 1 100)._maxIter.toNat = 99 + 1 := rfl
    rw [hc, hm, loop, hb]
    simp
  have hk : ((targetSolver [1] 1 100).solveLog [1]).2[0]? = some (Event.eval [1]) := by
    rw [hlog]; rfl
  have hlt : (targetSolver [1] 1 100)._problem.error [1] < 1 / 10 ^ 8 := by
    rw [he]; norm_num
  exact ⟨hk, hlt, early_exit (targetSolver [1] 1 100) [1] 0 [1] hk hlt⟩

/-- C4 (amended): `bestError` is initialised to `1e100`, so the first evaluated point is
recorded as `best` when its error is below `1e100`; and for every problem whose steps have
the size of `x`, every guess and every `maxIter`, if some evaluated point has an error
below `1e100` then `solve` returns one of the points it evaluated, a vector of the size of
the guess. -/
theorem best_effort (S : LSSolver) (guess : VectorXd)
    (hlen : ∀ x A, (S._problem.solveForDelta x S._damping A).1.length = x.length)
    (hsome : ∃ y ∈ S.evaluated guess, S._problem.error y < 10 ^ 100) :
    (S.initState guess).bestError = 10 ^ 100 ∧
    (∀ s1, S.body (S.initState guess) = some s1 →
      S._problem.error (S.initState guess).x < 10 ^ 100 →
      s1.best = (S.initState guess).x ∧ s1.bestError = S._problem.error (S.initState guess).x) ∧
    S.solve guess ∈ S.evaluated guess ∧ (S.solve guess).length = guess.length := by
  have hmem : S.solve guess ∈ S.evaluated guess := by
    rcases solveLog_best S guess with h | h
    · exact h.1
    · obtain ⟨y, hy, hlt⟩ := hsome
      exact absurd hlt (not_lt.mpr (h.2 y hy))
  have hsize : ∀ x ∈ S.evaluated guess, x.length = guess.length :=
    evaluated_points S (fun x => x.length = guess.length)
      (fun x A hx => by
        show (S.advance x A).1.length = guess.length
        rw [length_advance S x A (hlen x A)]; exact hx) guess
      (by simp only [_clamp]; exact clampLoop_length _ _ _)
  refine ⟨rfl, ?_, hmem, hsize _ hmem⟩
  intro s1 hb hlt
  unfold body at hb
  simp only [] at hb
  have hlt2 : S._problem.error (S.initState guess).x < (S.initState guess).bestError := hlt
  rw [if_pos hlt2] at hb
  split_ifs at hb
  simp only [Option.some.injEq] at hb
  rw [← hb]
  exact ⟨rfl, rfl⟩

/-- C4, witness: `descentSolver` from the guess `[5/2]`. -/
theorem best_effort_witness :
    (∃ y ∈ descentSolver.evaluated [5 / 2], descentSolver._problem.error y < 10 ^ 100) ∧
    descentSolver.solve [5 / 2] ∈ descentSolver.evaluated [5 / 2] ∧
    (descentSolver.solve [5 / 2]).length = ([5 / 2] : VectorXd).length :=
  have h : ∃ y ∈ descentSolver.evaluated [5 / 2], descentSolver._problem.error y < 10 ^ 100 := by
    obtain ⟨y, hy⟩ := List.exists_mem_of_ne_nil _ (evaluated_ne_nil descentSolver [5 / 2])
    exact ⟨y, hy, by norm_num [descentSolver, LSSolver.new, descentProblem]⟩
  ⟨h, (best_effort descentSolver [5 / 2] descentSolver_length h).2.2⟩

/-- C4, counterexample: for `r(x) = x` with `maxIter = 0` and the guess `[1e51]` the only
evaluated point is the guess, its error `1e102` is not below `1e100`, and `solve` returns
the empty vector `best`, which is not the evaluated point and has size `0`, not `1`. -/
theorem best_effort_counterexample :
    (targetSolver [0] 1 0).evaluated [10 ^ 51] = [[10 ^ 51]] ∧
    (targetSolver [0] 1 0)._problem.error [10 ^ 51] = 10 ^ 102 ∧
    (targetSolver [0] 1 0).solve [10 ^ 51] = [] := by
  have he : (targetSolver [0] 1 0)._problem.error [10 ^ 51] = 10 ^ 102 := by
    norm_num [targetSolver, targetSolverWith, denseProblem, targetEval, LSDenseEvalData.error, VectorXd.sub,
      VectorXd.squaredNorm]
  have hlog : (targetSolver [0] 1 0).solveLog [10 ^ 51] = ([], [Event.eval [10 ^ 51]]) := by
    unfold solveLog
    have hc : (targetSolver [0] 1 0).initState [10 ^ 51] =
        { x := [10 ^ 51], activeSet := [], best := [], bestError := 10 ^ 100 } := by
      simp [initState, targetSolver, targetSolverWith, _clamp, clampLoop]
    have hm : (targetSolver [0] 1 0)._maxIter.toNat = 0 := rfl
    rw [hc, hm, loop]
    simp only []
    rw [he]
    norm_num
  unfold solve evaluated
  rw [hlog]
  exact ⟨by simp [List.filterMap], he, rfl⟩

end LSSolver

end Cornu

namespace Cornu

/-! ## Lemmas on the dense linear algebra -/

theorem sumTo_congr (n : Nat) (f g : Nat → ℚ) (h : ∀ k, k < n → f k = g k) :
    sumTo n f = sumTo n g := by
  induction n with
  | zero => rfl
  | succ n ih =>
    rw [sumTo, sumTo, ih (fun k hk => h k (Nat.lt_succ_of_lt hk)), h n (Nat.lt_succ_self n)]

theorem sumTo_neg (n : Nat) (f : Nat → ℚ) : sumTo n (fun k => -f k) = -sumTo n f := by
  induction n with
  | zero => simp [sumTo]
  | succ n ih => rw [sumTo, sumTo, ih]; ring

namespace VectorXd

theorem length_ofFn (n : Nat) (f : Nat → ℚ) : (ofFn n f).length = n := by
  induction n with
  | zero => rfl
  | succ n ih => simp [ofFn, ih]

theorem coeff_ofFn (n : Nat) (f : Nat → ℚ) (i : Nat) (h : i < n) :
    coeff (ofFn n f) i = f i := by
  induction n with
  | zero => omega
  | succ n ih =>
    unfold coeff at ih ⊢
    rw [ofFn, List.getD_eq_getElem?_getD]
    by_cases hi : i < n
    · rw [List.getElem?_append_left (by rw [length_ofFn]; exact hi),
        ← List.getD_eq_getElem?_getD]
      exact ih hi
    · have hin : i = n := by omega
      subst hin
      rw [List.getElem?_append_right (by rw [length_ofFn]), length_ofFn]
      simp

theorem coeff_sub (x y : VectorXd) (j : Nat) (h : y.length = x.length) :
    coeff (sub x y) j = coeff x j - coeff y j := by
  simp only [coeff, sub, List.getD_eq_getElem?_getD, List.getElem?_zipWith]
  by_cases hj : j < x.length
  · have hj2 : j < y.length := h ▸ hj
    simp [List.getElem?_eq_getElem hj, List.getElem?_eq_getElem hj2]
  · have hj2 : ¬ j < y.length := h ▸ hj
    simp [List.getElem?_eq_none (not_lt.mp hj), List.getElem?_eq_none (not_lt.mp hj2)]

theorem coeff_neg (x : VectorXd) (j : Nat) : coeff (neg x) j = -coeff x j := by
  simp only [coeff, neg, List.getD_eq_getElem?_getD, List.getElem?_map]
  cases x[j]? <;> simp

theorem length_neg (x : VectorXd) : (neg x).length = x.length := by
  simp [neg]

theorem coeff_Zero (n j : Nat) : coeff (Zero n) j = 0 := by
  simp only [coeff, Zero, List.getD_eq_getElem?_getD]
  by_cases h : j < n
  · simp [List.getElem?_replicate, h]
  · simp [List.getElem?_replicate, h]

theorem length_Zero (n : Nat) : (Zero n).length = n := by
  simp [Zero]

end VectorXd

namespace LSDenseEvalData

/-- The gradient that `solveForDelta` computes is `J^T (J out + r)`. -/
theorem coeff_gradient (d : LSDenseEvalData) (out : VectorXd) (i : Nat)
    (hwf : d._err.length = d._errDer.rows) (hi : i < d._errDer.cols) :
    VectorXd.coeff (d._errDer.transpose.mulVec
      (VectorXd.sub (d._errDer.mulVec out) (VectorXd.neg d._err))) i = gradientAt d out i := by
  unfold MatrixXd.mulVec gradientAt
  have hi2 : i < d._errDer.transpose.rows := hi
  rw [VectorXd.coeff_ofFn _ _ _ hi2]
  apply sumTo_congr
  intro row hrow
  have hrow2 : row < d._errDer.rows := hrow
  simp only [MatrixXd.transpose]
  rw [VectorXd.coeff_sub _ _ _ (by rw [VectorXd.length_neg, VectorXd.length_ofFn, hwf]),
    VectorXd.coeff_ofFn _ _ _ hrow2, VectorXd.coeff_neg]
  ring

theorem releaseLoop_eq_filter (g : VectorXd) (A : List LSBoxConstraint) :
    releaseLoop g A = A.filter (fun c => decide (¬ VectorXd.coeff g c.index * (c.sign : ℚ) < 0)) := by
  induction A with
  | nil => rfl
  | cons c A ih =>
    rw [releaseLoop, ih, List.filter_cons]
    by_cases h : VectorXd.coeff g c.index * (c.sign : ℚ) < 0
    · rw [if_pos h]
      simp [h]
    · rw [if_neg h]
      simp [h]

end LSDenseEvalData

end Cornu

namespace Cornu

namespace LSDenseEvalData

theorem solveForDelta_nil (ldlt : MatrixXd → VectorXd → VectorXd) (d : LSDenseEvalData)
    (damping : ℚ) :
    d.solveForDelta ldlt damping [] =
      (ldlt (normalMatrix damping d._errDer) (d._errDer.transpose.neg.mulVec d._err), []) := rfl

theorem solveForDelta_cons (ldlt : MatrixXd → VectorXd → VectorXd) (d : LSDenseEvalData)
    (damping : ℚ) (c : LSBoxConstraint) (A : List LSBoxConstraint) :
    d.solveForDelta ldlt damping (c :: A) =
      (restrictedOut ldlt d damping (c :: A),
        releaseLoop (d._errDer.transpose.mulVec
          (VectorXd.sub (d._errDer.mulVec (restrictedOut ldlt d damping (c :: A)))
            (VectorXd.neg d._err))) (c :: A)) := rfl

end LSDenseEvalData

/-- The active set that `solveForDelta` returns, as a filter by the gradient of the
specification. -/
theorem LSDenseEvalData.solveForDelta_snd (ldlt : MatrixXd → VectorXd → VectorXd)
    (d : LSDenseEvalData) (damping : ℚ) (A : List LSBoxConstraint)
    (hwf : d._err.length = d._errDer.rows)
    (hidx : ∀ c ∈ A, c.index < d._errDer.cols) :
    (d.solveForDelta ldlt damping A).2 =
      A.filter (fun c => decide
        (¬ gradientAt d (d.solveForDelta ldlt damping A).1 c.index * (c.sign : ℚ) < 0)) := by
  cases A with
  | nil => rfl
  | cons c A =>
    rw [LSDenseEvalData.solveForDelta_cons]
    simp only []
    rw [LSDenseEvalData.releaseLoop_eq_filter]
    apply List.filter_congr
    intro a ha
    rw [LSDenseEvalData.coeff_gradient d _ a.index hwf (hidx a ha)]

/-! ## The claims on `solveForDelta` -/

/-- C8: for every Jacobian, residual of matching size, damping and incoming active set `A`
with indices below the number of variables, the active set after `solveForDelta` is `A`
without exactly the constraints `c` with `g[c.index] * c.sign < 0`, where
`g = J^T (J delta + r)` is computed from the step `delta` that the call returns: nothing is
added, and every constraint with `g[c.index] * c.sign >= 0` is kept. -/
theorem release_spec (ldlt : MatrixXd → VectorXd → VectorXd) (d : LSDenseEvalData)
    (damping : ℚ) (A : List LSBoxConstraint)
    (hwf : d._err.length = d._errDer.rows)
    (hidx : ∀ c ∈ A, c.index < d._errDer.cols) :
    (d.solveForDelta ldlt damping A).2 =
      A.filter (fun c => decide
        (¬ gradientAt d (d.solveForDelta ldlt damping A).1 c.index * (c.sign : ℚ) < 0)) ∧
    (∀ c ∈ (d.solveForDelta ldlt damping A).2, c ∈ A) ∧
    (∀ c ∈ A, 0 ≤ gradientAt d (d.solveForDelta ldlt damping A).1 c.index * (c.sign : ℚ) →
      c ∈ (d.solveForDelta ldlt damping A).2) ∧
    (∀ c ∈ A, gradientAt d (d.solveForDelta ldlt damping A).1 c.index * (c.sign : ℚ) < 0 →
      c ∉ (d.solveForDelta ldlt damping A).2) := by
  have key := LSDenseEvalData.solveForDelta_snd ldlt d damping A hwf hidx
  refine ⟨key, ?_, ?_, ?_⟩
  · intro c hc
    rw [key] at hc
    exact List.mem_of_mem_filter hc
  · intro c hc hg
    rw [key]
    exact List.mem_filter.mpr ⟨hc, by simpa using hg⟩
  · intro c hc hg hm
    rw [key] at hm
    have := (List.mem_filter.mp hm).2
    simp only [not_lt, decide_eq_true_eq] at this
    exact absurd hg (not_lt.mpr this)

theorem targetEval_release_example :
    (targetEval [1, 2] [0, 4]).solveForDelta diagSolve 1 [⟨0, 0, 1⟩] = ([0, -1], []) := by
  simp [LSDenseEvalData.solveForDelta, targetEval, diagSolve, LSDenseEvalData.markIndices,
    LSDenseEvalData.gatherLoop, LSDenseEvalData.scatterLoop, LSDenseEvalData.releaseLoop,
    MatrixXd.Identity, MatrixXd.smul, MatrixXd.add, MatrixXd.mul, MatrixXd.mulVec,
    MatrixXd.transpose, MatrixXd.neg, MatrixXd.uninit, MatrixXd.setCol, MatrixXd.col,
    VectorXd.ofFn, sumTo, VectorXd.coeff, VectorXd.setCoeff, VectorXd.sub, VectorXd.neg,
    VectorXd.Zero]
  norm_num

/-- C8, witness: `r(x) = x - (1, 2)` evaluated at `(0, 4)` with the bound `x[0] >= 0` active:
the gradient at index `0` is `-1`, so the bound is released. -/
theorem release_spec_witness :
    (targetEval [1, 2] [0, 4])._err.length = (targetEval [1, 2] [0, 4])._errDer.rows ∧
    (∀ c ∈ [(⟨0, 0, 1⟩ : LSBoxConstraint)], c.index < (targetEval [1, 2] [0, 4])._errDer.cols) ∧
    gradientAt (targetEval [1, 2] [0, 4])
      ((targetEval [1, 2] [0, 4]).solveForDelta diagSolve 1 [⟨0, 0, 1⟩]).1 0 *
        (((1 : Int)) : ℚ) < 0 ∧
    (⟨0, 0, 1⟩ : LSBoxConstraint) ∉
      ((targetEval [1, 2] [0, 4]).solveForDelta diagSolve 1 [⟨0, 0, 1⟩]).2 :=
  have hg : gradientAt (targetEval [1, 2] [0, 4])
      ((targetEval [1, 2] [0, 4]).solveForDelta diagSolve 1 [⟨0, 0, 1⟩]).1 0 *
        (((1 : Int)) : ℚ) < 0 := by
    rw [targetEval_release_example]
    norm_num [gradientAt, targetEval, MatrixXd.Identity, sumTo, VectorXd.coeff, VectorXd.sub]
  ⟨rfl, by simp [targetEval, MatrixXd.Identity], hg,
   (release_spec diagSolve (targetEval [1, 2] [0, 4]) 1 [⟨0, 0, 1⟩] rfl
     (by simp [targetEval, MatrixXd.Identity])).2.2.2 ⟨0, 0, 1⟩ (by simp) hg⟩

end Cornu

namespace Cornu

namespace LSDenseEvalData

/-! ## The loops of `solveForDelta` -/

theorem length_markIndices (A : List LSBoxConstraint) (flags : List Bool) :
    (markIndices A flags).length = flags.length := by
  induction A generalizing flags with
  | nil => rfl
  | cons c A ih => rw [markIndices, ih, List.length_set]

theorem getD_markIndices (A : List LSBoxConstraint) (flags : List Bool) (i : Nat)
    (hidx : ∀ c ∈ A, c.index < flags.length) :
    (markIndices A flags).getD i false = true ↔
      flags.getD i false = true ∨ ∃ c ∈ A, c.index = i := by
  induction A generalizing flags with
  | nil => simp [markIndices]
  | cons c A ih =>
    have hc : c.index < flags.length := hidx c (List.mem_cons_self c A)
    rw [markIndices, ih _ (fun a ha => by
      rw [List.length_set]; exact hidx a (List.mem_cons_of_mem c ha))]
    have hset : (flags.set c.index true).getD i false = true ↔
        flags.getD i false = true ∨ c.index = i := by
      simp only [List.getD_eq_getElem?_getD, List.getElem?_set]
      by_cases h : c.index = i
      · subst h
        simp [hc]
      · simp [h]
    rw [hset]
    constructor
    · rintro ((h | h) | ⟨a, ha, hai⟩)
      · exact Or.inl h
      · exact Or.inr ⟨c, List.mem_cons_self c A, h⟩
      · exact Or.inr ⟨a, List.mem_cons_of_mem c ha, hai⟩
    · rintro (h | ⟨a, ha, hai⟩)
      · exact Or.inl (Or.inl h)
      · rcases List.mem_cons.mp ha with h | h
        · exact Or.inl (Or.inr (h ▸ hai))
        · exact Or.inr ⟨a, h, hai⟩

theorem freeOf_eq_filter (flags : List Bool) (i : Nat) :
    freeOf flags i =
      ((List.range flags.length).filter (fun p => !flags.getD p false)).map (fun p => p + i) := by
  induction flags generalizing i with
  | nil => rfl
  | cons b flags ih =>
    rw [List.length_cons, List.range_succ_eq_map, List.filter_cons, List.filter_map]
    have hcomp : ((fun p => !(b :: flags).getD p false) ∘ Nat.succ) =
        (fun p => !flags.getD p false) := by
      funext p
      simp
    rw [hcomp]
    cases b with
    | true =>
      simp only [freeOf, List.getD_cons_zero, Bool.not_true, Bool.false_eq_true, if_false,
        List.map_map]
      rw [ih (i + 1)]
      apply List.map_congr_left
      intro p _
      simp only [Function.comp_apply, Nat.succ_eq_add_one]
      omega
    | false =>
      simp only [freeOf, List.getD_cons_zero, Bool.not_false, if_true, List.map_cons,
        List.map_map, Nat.zero_add]
      rw [ih (i + 1)]
      congr 1
      apply List.map_congr_left
      intro p _
      simp only [Function.comp_apply, Nat.succ_eq_add_one]
      omega

theorem freeOf_markIndices (n : Nat) (A : List LSBoxConstraint)
    (hidx : ∀ c ∈ A, c.index < n) :
    freeOf (markIndices A (List.replicate n false)) 0 = freeIndices n A := by
  rw [freeOf_eq_filter, length_markIndices, List.length_replicate]
  simp only [Nat.add_zero, List.map_id']
  unfold freeIndices
  apply List.filter_congr
  intro p hp
  have hpn : p < n := List.mem_range.mp hp
  have h := getD_markIndices A (List.replicate n false) p
    (by simpa using hidx)
  have hrep : (List.replicate n false).getD p false = false := by
    simp [List.getD_eq_getElem?_getD, List.getElem?_replicate, hpn]
  rw [hrep] at h
  simp only [Bool.false_eq_true, false_or] at h
  cases hb : (markIndices A (List.replicate n false)).getD p false with
  | true =>
    obtain ⟨c, hc, hcp⟩ := h.mp hb
    simp only [Bool.not_true]
    symm
    rw [Bool.eq_false_iff]
    intro hall
    have := List.all_eq_true.mp hall c hc
    simp [hcp] at this
  | false =>
    simp only [Bool.not_false]
    symm
    rw [List.all_eq_true]
    intro c hc
    simp only [ne_eq, decide_not, Bool.not_eq_true', decide_eq_false_iff_not]
    intro hcp
    have := h.mpr ⟨c, hc, hcp⟩
    rw [hb] at this
    exact absurd this (by simp)

theorem length_freeIndices (n : Nat) (A : List LSBoxConstraint)
    (hidx : ∀ c ∈ A, c.index < n) (hdist : A.Pairwise (fun a b => a.index ≠ b.index)) :
    (freeIndices n A).length = n - A.length := by
  have hnd : (A.map (fun c => c.index)).Nodup := by
    rw [List.Nodup, List.pairwise_map]
    exact hdist
  have hperm : ((List.range n).filter (fun i => decide (i ∈ A.map (fun c => c.index)))).Perm
      (A.map (fun c => c.index)) := by
    rw [List.perm_ext_iff_of_nodup ((List.nodup_range n).filter _) hnd]
    intro i
    simp only [List.mem_filter, List.mem_range, decide_eq_true_eq, List.mem_map]
    constructor
    · rintro ⟨_, h⟩; exact h
    · rintro ⟨c, hc, hci⟩
      exact ⟨hci ▸ hidx c hc, c, hc, hci⟩
  have hlen := hperm.length_eq
  rw [List.length_map] at hlen
  have hsplit := (List.filter_append_perm
    (fun i => decide (i ∈ A.map (fun c => c.index))) (List.range n)).length_eq
  rw [List.length_append, List.length_range, hlen] at hsplit
  have hfree : freeIndices n A =
      (List.range n).filter (fun i => !decide (i ∈ A.map (fun c => c.index))) := by
    unfold freeIndices
    apply List.filter_congr
    intro i _
    by_cases h : i ∈ A.map (fun c => c.index)
    · obtain ⟨c, hc, hci⟩ := List.mem_map.mp h
      simp only [h, decide_True, Bool.not_true]
      rw [Bool.eq_false_iff]
      intro hall
      have := List.all_eq_true.mp hall c hc
      simp [hci] at this
    · simp only [h, decide_False, Bool.not_false]
      rw [List.all_eq_true]
      intro c hc
      simp only [ne_eq, decide_not, Bool.not_eq_true', decide_eq_false_iff_not]
      intro hci
      exact h (List.mem_map.mpr ⟨c, hc, hci⟩)
  rw [hfree]
  omega

end LSDenseEvalData

end Cornu

namespace Cornu

namespace LSDenseEvalData

theorem gatherLoop_rows (J : MatrixXd) (flags : List Bool) (i offs : Nat) (lhs : MatrixXd) :
    (gatherLoop J flags i offs lhs).rows = lhs.rows ∧
      (gatherLoop J flags i offs lhs).cols = lhs.cols := by
  induction flags generalizing i offs lhs with
  | nil => exact ⟨rfl, rfl⟩
  | cons b flags ih =>
    cases b with
    | true => exact ih (i + 1) (offs + 1) lhs
    | false => exact ih (i + 1) offs (lhs.setCol (i - offs) (J.col i))

/-- The gathering loop copies the column of the `j`-th free index to the column
`(i - offs) + j` and leaves the other columns alone. -/
theorem gatherLoop_coeff (J : MatrixXd) (flags : List Bool) (i offs : Nat) (lhs : MatrixXd)
    (ho : offs ≤ i) (row col : Nat) :
    (gatherLoop J flags i offs lhs).coeff row col =
      if i - offs ≤ col ∧ col - (i - offs) < (freeOf flags i).length then
        J.coeff row ((freeOf flags i).getD (col - (i - offs)) 0)
      else lhs.coeff row col := by
  induction flags generalizing i offs lhs with
  | nil => simp [gatherLoop, freeOf]
  | cons b flags ih =>
    cases b with
    | true =>
      rw [gatherLoop, freeOf, ih (i + 1) (offs + 1) lhs (by omega)]
      have e : i + 1 - (offs + 1) = i - offs := by omega
      rw [e]
    | false =>
      rw [gatherLoop, freeOf, ih (i + 1) offs _ (by omega)]
      have e : i + 1 - offs = i - offs + 1 := by omega
      rw [e]
      simp only [List.length_cons]
      by_cases h1 : col < i - offs
      · have c1 : ¬ (i - offs + 1 ≤ col ∧ col - (i - offs + 1) < (freeOf flags (i + 1)).length) := by
          omega
        have c2 : ¬ (i - offs ≤ col ∧ col - (i - offs) < (freeOf flags (i + 1)).length + 1) := by
          omega
        rw [if_neg c1, if_neg c2]
        simp only [MatrixXd.setCol]
        rw [if_neg (by omega)]
      · by_cases h2 : col = i - offs
        · have c1 : ¬ (i - offs + 1 ≤ col ∧
              col - (i - offs + 1) < (freeOf flags (i + 1)).length) := by omega
          have c2 : i - offs ≤ col ∧ col - (i - offs) < (freeOf flags (i + 1)).length + 1 := by
            omega
          rw [if_neg c1, if_pos c2]
          have e0 : col - (i - offs) = 0 := by omega
          rw [e0]
          simp only [MatrixXd.setCol, MatrixXd.col, List.getD_cons_zero]
          rw [if_pos h2]
        · have e1 : col - (i - offs) = (col - (i - offs + 1)) + 1 := by omega
          by_cases h3 : col - (i - offs + 1) < (freeOf flags (i + 1)).length
          · have c1 : i - offs + 1 ≤ col ∧
                col - (i - offs + 1) < (freeOf flags (i + 1)).length := ⟨by omega, h3⟩
            have c2 : i - offs ≤ col ∧
                col - (i - offs) < (freeOf flags (i + 1)).length + 1 := by omega
            rw [if_pos c1, if_pos c2, e1, List.getD_cons_succ]
          · have c1 : ¬ (i - offs + 1 ≤ col ∧
                col - (i - offs + 1) < (freeOf flags (i + 1)).length) := by
              intro h; exact h3 h.2
            have c2 : ¬ (i - offs ≤ col ∧
                col - (i - offs) < (freeOf flags (i + 1)).length + 1) := by omega
            rw [if_neg c1, if_neg c2]
            simp only [MatrixXd.setCol]
            rw [if_neg h2]

theorem scatterLoop_coeff_lt (x : VectorXd) (flags : List Bool) (i offs : Nat) (out : VectorXd)
    (p : Nat) (hp : p < i) :
    VectorXd.coeff (scatterLoop x flags i offs out) p = VectorXd.coeff out p := by
  induction flags generalizing i offs out with
  | nil => rfl
  | cons b flags ih =>
    cases b with
    | true =>
      rw [scatterLoop, ih _ _ _ (by omega), VectorXd.coeff_setCoeff, if_neg (by omega)]
    | false =>
      rw [scatterLoop, ih _ _ _ (by omega), VectorXd.coeff_setCoeff, if_neg (by omega)]

/-- The scattering loop writes `0.` at every flagged index. -/
theorem scatterLoop_coeff_flagged (x : VectorXd) (flags : List Bool) (i offs : Nat)
    (out : VectorXd) (hlen : i + flags.length ≤ out.length) (p : Nat) (hpi : i ≤ p)
    (hf : flags.getD (p - i) false = true) :
    VectorXd.coeff (scatterLoop x flags i offs out) p = 0 := by
  induction flags generalizing i offs out with
  | nil => simp at hf
  | cons b flags ih =>
    have hil : i < out.length := by simp only [List.length_cons] at hlen; omega
    have hlen2 : ∀ v, i + 1 + flags.length ≤ (VectorXd.setCoeff out i v).length := by
      intro v
      rw [VectorXd.length_setCoeff]
      simp only [List.length_cons] at hlen
      omega
    by_cases hpe : p = i
    · subst hpe
      have hb : b = true := by simpa using hf
      subst hb
      rw [scatterLoop, scatterLoop_coeff_lt _ _ _ _ _ _ (Nat.lt_succ_self p),
        VectorXd.coeff_setCoeff, if_pos ⟨rfl, hil⟩]
    · have e : p - i = (p - (i + 1)) + 1 := by omega
      rw [e, List.getD_cons_succ] at hf
      cases b with
      | true => rw [scatterLoop]; exact ih _ _ _ (hlen2 _) (by omega) hf
      | false => rw [scatterLoop]; exact ih _ _ _ (hlen2 _) (by omega) hf

/-- The scattering loop writes `x[(i - offs) + j]` at the `j`-th free index. -/
theorem scatterLoop_coeff_free (x : VectorXd) (flags : List Bool) (i offs : Nat)
    (out : VectorXd) (hlen : i + flags.length ≤ out.length) (ho : offs ≤ i) (j : Nat)
    (hj : j < (freeOf flags i).length) :
    VectorXd.coeff (scatterLoop x flags i offs out) ((freeOf flags i).getD j 0) =
      VectorXd.coeff x (i - offs + j) := by
  induction flags generalizing i offs out j with
  | nil => simp [freeOf] at hj
  | cons b flags ih =>
    have hil : i < out.length := by simp only [List.length_cons] at hlen; omega
    have hlen2 : ∀ v, i + 1 + flags.length ≤ (VectorXd.setCoeff out i v).length := by
      intro v
      rw [VectorXd.length_setCoeff]
      simp only [List.length_cons] at hlen
      omega
    cases b with
    | true =>
      rw [freeOf] at hj ⊢
      rw [scatterLoop, ih _ _ _ (hlen2 _) (by omega) j hj]
      have e : i + 1 - (offs + 1) = i - offs := by omega
      rw [e]
    | false =>
      rw [freeOf] at hj ⊢
      rw [scatterLoop]
      cases j with
      | zero =>
        rw [List.getD_cons_zero, scatterLoop_coeff_lt _ _ _ _ _ _ (Nat.lt_succ_self i),
          VectorXd.coeff_setCoeff, if_pos ⟨rfl, hil⟩]
        rfl
      | succ j =>
        rw [List.getD_cons_succ, ih _ _ _ (hlen2 _) (by omega) j
          (by simpa using hj)]
        have e : i + 1 - offs + j = i - offs + (j + 1) := by omega
        rw [e]

end LSDenseEvalData

end Cornu

namespace Cornu

namespace LSDenseEvalData

/-- A solution `y` of the system that `solveForDelta` hands to the factorisation, read back
through the list `F` of free indices, solves the restricted system of the specification. -/
theorem solvesRestricted_of_isSolution (d : LSDenseEvalData) (damping : ℚ) (F : List Nat)
    (lhs : MatrixXd) (y b out : VectorXd)
    (hrows : lhs.rows = d._errDer.rows) (hcols : lhs.cols = F.length)
    (hcoef : ∀ row a, a < F.length → lhs.coeff row a = d._errDer.coeff row (F.getD a 0))
    (hy : ∀ j, j < F.length → VectorXd.coeff out (F.getD j 0) = VectorXd.coeff y j)
    (hb : ∀ a, a < F.length → VectorXd.coeff b a =
      -sumTo lhs.rows (fun row => lhs.coeff row a * VectorXd.coeff d._err row))
    (hsol : IsSolution (normalMatrix damping lhs) y b) :
    SolvesRestricted d damping F (fun j => VectorXd.coeff out (F.getD j 0)) := by
  intro a ha
  have h := hsol a (by simp only [normalMatrix, MatrixXd.add, MatrixXd.smul,
    MatrixXd.Identity]; rw [hcols]; exact ha)
  simp only [normalMatrix, MatrixXd.add, MatrixXd.smul, MatrixXd.Identity, MatrixXd.mul,
    MatrixXd.transpose] at h
  rw [hcols, hb a ha, hrows] at h
  have e1 : sumTo d._errDer.rows (fun row => lhs.coeff row a * VectorXd.coeff d._err row) =
      sumTo d._errDer.rows
        (fun row => d._errDer.coeff row (F.getD a 0) * VectorXd.coeff d._err row) :=
    sumTo_congr _ _ _ (fun row _ => by rw [hcoef row a ha])
  rw [e1] at h
  rw [← h]
  apply sumTo_congr
  intro c hc
  show (_ + _) * VectorXd.coeff out (F.getD c 0) = _
  rw [hy c hc]
  have e2 : sumTo d._errDer.rows (fun k => lhs.coeff k a * lhs.coeff k c) =
      sumTo d._errDer.rows
        (fun row => d._errDer.coeff row (F.getD a 0) * d._errDer.coeff row (F.getD c 0)) :=
    sumTo_congr _ _ _ (fun row _ => by rw [hcoef row a ha, hcoef row c hc])
  rw [e2]
  ring

theorem freeIndices_nil (n : Nat) : freeIndices n [] = List.range n := by
  unfold freeIndices
  rw [List.filter_eq_self]
  intro a _
  rfl

theorem getD_range (n a : Nat) (h : a < n) : (List.range n).getD a 0 = a := by
  rw [List.getD_eq_getElem?_getD, List.getElem?_range h]
  rfl

theorem restrictedLhs_coeff (d : LSDenseEvalData) (A : List LSBoxConstraint)
    (hidx : ∀ c ∈ A, c.index < d._errDer.cols) (row a : Nat)
    (ha : a < (freeIndices d._errDer.cols A).length) :
    (restrictedLhs d A).coeff row a =
      d._errDer.coeff row ((freeIndices d._errDer.cols A).getD a 0) := by
  unfold restrictedLhs
  rw [gatherLoop_coeff _ _ _ _ _ (le_refl 0), freeOf_markIndices _ _ hidx]
  simp only [Nat.sub_zero, Nat.zero_le, true_and]
  rw [if_pos ha]

end LSDenseEvalData

/-- The step of `solveForDelta` is zero at every index of the active set. -/
theorem LSDenseEvalData.solveForDelta_coeff_active (ldlt : MatrixXd → VectorXd → VectorXd)
    (d : LSDenseEvalData) (damping : ℚ) (A : List LSBoxConstraint)
    (hidx : ∀ c ∈ A, c.index < d._errDer.cols) :
    ∀ c ∈ A, VectorXd.coeff (d.solveForDelta ldlt damping A).1 c.index = 0 := by
  intro c hc
  cases A with
  | nil => simp at hc
  | cons a A =>
    rw [LSDenseEvalData.solveForDelta_cons]
    simp only []
    unfold restrictedOut
    split_ifs with hlt
    · apply LSDenseEvalData.scatterLoop_coeff_flagged
      · rw [LSDenseEvalData.length_markIndices, List.length_replicate,
          VectorXd.length_Zero]
        omega
      · exact Nat.zero_le _
      · rw [Nat.sub_zero, LSDenseEvalData.getD_markIndices _ _ _ (by simpa using hidx)]
        exact Or.inr ⟨c, hc, rfl⟩
    · exact VectorXd.coeff_Zero _ _

/-- Without active constraints the step solves the full system. -/
theorem LSDenseEvalData.solveForDelta_solves_nil (ldlt : MatrixXd → VectorXd → VectorXd)
    (d : LSDenseEvalData) (damping : ℚ)
    (hfull : IsSolution (normalMatrix damping d._errDer)
      (ldlt (normalMatrix damping d._errDer) (d._errDer.transpose.neg.mulVec d._err))
      (d._errDer.transpose.neg.mulVec d._err)) :
    SolvesRestricted d damping (freeIndices d._errDer.cols [])
      (fun j => VectorXd.coeff (d.solveForDelta ldlt damping []).1
        ((freeIndices d._errDer.cols []).getD j 0)) := by
  rw [LSDenseEvalData.solveForDelta_nil]
  have hF := LSDenseEvalData.freeIndices_nil d._errDer.cols
  apply LSDenseEvalData.solvesRestricted_of_isSolution d damping _ d._errDer _
    (d._errDer.transpose.neg.mulVec d._err) _ rfl (by rw [hF, List.length_range])
  · intro row a ha
    rw [hF] at ha ⊢
    rw [LSDenseEvalData.getD_range _ _ (by simpa using ha)]
  · intro j hj
    rw [hF] at hj ⊢
    rw [LSDenseEvalData.getD_range _ _ (by simpa using hj)]
  · intro a ha
    rw [hF, List.length_range] at ha
    unfold MatrixXd.mulVec
    have ha2 : a < d._errDer.transpose.neg.rows := ha
    rw [VectorXd.coeff_ofFn _ _ _ ha2, ← sumTo_neg]
    apply sumTo_congr
    intro row _
    simp only [MatrixXd.neg, MatrixXd.transpose]
    ring
  · exact hfull

/-- With fewer active constraints than variables the step, read at the free indices, solves
the restricted system. -/
theorem LSDenseEvalData.solveForDelta_solves_cons (ldlt : MatrixXd → VectorXd → VectorXd)
    (d : LSDenseEvalData) (damping : ℚ) (a : LSBoxConstraint) (A : List LSBoxConstraint)
    (hidx : ∀ c ∈ a :: A, c.index < d._errDer.cols)
    (hdist : (a :: A).Pairwise (fun a b => a.index ≠ b.index))
    (hlt : (a :: A).length < d._errDer.cols)
    (hrestr : IsSolution (normalMatrix damping (restrictedLhs d (a :: A)))
        (ldlt (normalMatrix damping (restrictedLhs d (a :: A)))
          ((restrictedLhs d (a :: A)).transpose.mulVec (VectorXd.neg d._err)))
        ((restrictedLhs d (a :: A)).transpose.mulVec (VectorXd.neg d._err))) :
    SolvesRestricted d damping (freeIndices d._errDer.cols (a :: A))
      (fun j => VectorXd.coeff (d.solveForDelta ldlt damping (a :: A)).1
        ((freeIndices d._errDer.cols (a :: A)).getD j 0)) := by
  have hk := LSDenseEvalData.length_freeIndices d._errDer.cols (a :: A) hidx hdist
  rw [LSDenseEvalData.solveForDelta_cons]
  simp only []
  unfold restrictedOut
  rw [if_pos hlt]
  have hlhs := LSDenseEvalData.gatherLoop_rows d._errDer
    (LSDenseEvalData.markIndices (a :: A) (List.replicate d._errDer.cols false)) 0 0
    (MatrixXd.uninit d._errDer.rows (d._errDer.cols - (a :: A).length))
  apply LSDenseEvalData.solvesRestricted_of_isSolution d damping _
    (restrictedLhs d (a :: A)) _
    ((restrictedLhs d (a :: A)).transpose.mulVec (VectorXd.neg d._err)) _
    hlhs.1 (by rw [hk]; exact hlhs.2)
  · intro row b hb
    exact LSDenseEvalData.restrictedLhs_coeff d (a :: A) hidx row b hb
  · intro j hj
    have := LSDenseEvalData.scatterLoop_coeff_free
      (ldlt (normalMatrix damping (restrictedLhs d (a :: A)))
        ((restrictedLhs d (a :: A)).transpose.mulVec (VectorXd.neg d._err)))
      (LSDenseEvalData.markIndices (a :: A) (List.replicate d._errDer.cols false)) 0 0
      (VectorXd.Zero d._errDer.cols)
      (by rw [LSDenseEvalData.length_markIndices, List.length_replicate,
            VectorXd.length_Zero]; omega)
      (le_refl 0) j
      (by rw [LSDenseEvalData.freeOf_markIndices _ _ hidx]; exact hj)
    rw [LSDenseEvalData.freeOf_markIndices _ _ hidx] at this
    simpa using this
  · intro b hb
    unfold MatrixXd.mulVec
    have hb2 : b < (restrictedLhs d (a :: A)).transpose.rows := by
      show b < (restrictedLhs d (a :: A)).cols
      rw [show (restrictedLhs d (a :: A)).cols = _ from hlhs.2]
      show b < d._errDer.cols - (a :: A).length
      rw [← hk]; exact hb
    rw [VectorXd.coeff_ofFn _ _ _ hb2, ← sumTo_neg]
    apply sumTo_congr
    intro row _
    simp only [MatrixXd.transpose]
    rw [VectorXd.coeff_neg]
    ring
  · exact hrestr

/-- C7: for every Jacobian `J` (`m x n`), residual `r`, damping and active set `A` with
distinct indices below `n`, provided each LDLT solve that `solveForDelta` performs returns
a solution of the system handed to it: the step `delta` it writes is zero at every index of
`A` (and at every index when `A` has `n` elements), the number of free indices is
`k = n - |A|`, and the restriction of `delta` to the free indices `F`, listed in increasing
order, solves `(damping * I_k + J_F^T J_F) delta_F = -J_F^T r`; for an empty `A` this is
`(damping * I + J^T J) delta = -J^T r` over all `n` variables. -/
theorem restricted_step (ldlt : MatrixXd → VectorXd → VectorXd) (d : LSDenseEvalData)
    (damping : ℚ) (A : List LSBoxConstraint)
    (hidx : ∀ c ∈ A, c.index < d._errDer.cols)
    (hdist : A.Pairwise (fun a b => a.index ≠ b.index))
    (hfull : A = [] → IsSolution (normalMatrix damping d._errDer)
      (ldlt (normalMatrix damping d._errDer) (d._errDer.transpose.neg.mulVec d._err))
      (d._errDer.transpose.neg.mulVec d._err))
    (hrestr : A ≠ [] → A.length < d._errDer.cols →
      IsSolution (normalMatrix damping (restrictedLhs d A))
        (ldlt (normalMatrix damping (restrictedLhs d A))
          ((restrictedLhs d A).transpose.mulVec (VectorXd.neg d._err)))
        ((restrictedLhs d A).transpose.mulVec (VectorXd.neg d._err))) :
    (∀ c ∈ A, VectorXd.coeff (d.solveForDelta ldlt damping A).1 c.index = 0) ∧
    (A.length = d._errDer.cols →
      ∀ i, i < d._errDer.cols → VectorXd.coeff (d.solveForDelta ldlt damping A).1 i = 0) ∧
    (freeIndices d._errDer.cols A).length = d._errDer.cols - A.length ∧
    SolvesRestricted d damping (freeIndices d._errDer.cols A)
      (fun j => VectorXd.coeff (d.solveForDelta ldlt damping A).1
        ((freeIndices d._errDer.cols A).getD j 0)) ∧
    (A = [] → ∀ a, a < d._errDer.cols →
      sumTo d._errDer.cols (fun b =>
        (damping * (if a = b then 1 else 0) +
          sumTo d._errDer.rows (fun row => d._errDer.coeff row a * d._errDer.coeff row b)) *
          VectorXd.coeff (d.solveForDelta ldlt damping A).1 b) =
      -sumTo d._errDer.rows (fun row => d._errDer.coeff row a * VectorXd.coeff d._err row)) := by
  have hk := LSDenseEvalData.length_freeIndices d._errDer.cols A hidx hdist
  have hnil : A = [] → SolvesRestricted d damping (freeIndices d._errDer.cols A)
      (fun j => VectorXd.coeff (d.solveForDelta ldlt damping A).1
        ((freeIndices d._errDer.cols A).getD j 0)) := by
    intro hA
    subst hA
    exact LSDenseEvalData.solveForDelta_solves_nil ldlt d damping (hfull rfl)
  refine ⟨LSDenseEvalData.solveForDelta_coeff_active ldlt d damping A hidx, ?_, hk, ?_, ?_⟩
  · intro hn i hi
    cases A with
    | nil =>
      simp only [List.length_nil] at hn
      omega
    | cons a A =>
      rw [LSDenseEvalData.solveForDelta_cons]
      simp only []
      unfold restrictedOut
      rw [if_neg (by omega)]
      exact VectorXd.coeff_Zero _ _
  · by_cases hA : A = []
    · exact hnil hA
    · cases A with
      | nil => exact absurd rfl hA
      | cons a A =>
        by_cases hlt : (a :: A).length < d._errDer.cols
        · exact LSDenseEvalData.solveForDelta_solves_cons ldlt d damping a A hidx hdist hlt
            (hrestr hA hlt)
        · intro b hb
          rw [hk] at hb
          omega
  · intro hA a ha
    have h := hnil hA a (by rw [hA, LSDenseEvalData.freeIndices_nil, List.length_range]; exact ha)
    rw [hA, LSDenseEvalData.freeIndices_nil, List.length_range] at h
    rw [hA]
    rw [LSDenseEvalData.getD_range _ _ ha] at h
    rw [← h]
    apply sumTo_congr
    intro b hb
    simp only []
    rw [LSDenseEvalData.getD_range _ _ hb]

end Cornu

namespace Cornu

theorem targetEval_restricted_isSolution :
    IsSolution (normalMatrix 1 (restrictedLhs (targetEval [1, 2] [0, 4]) [⟨0, 0, 1⟩]))
      (diagSolve (normalMatrix 1 (restrictedLhs (targetEval [1, 2] [0, 4]) [⟨0, 0, 1⟩]))
        ((restrictedLhs (targetEval [1, 2] [0, 4]) [⟨0, 0, 1⟩]).transpose.mulVec
          (VectorXd.neg (targetEval [1, 2] [0, 4])._err)))
      ((restrictedLhs (targetEval [1, 2] [0, 4]) [⟨0, 0, 1⟩]).transpose.mulVec
        (VectorXd.neg (targetEval [1, 2] [0, 4])._err)) := by
  intro a ha
  have ha0 : a = 0 := by
    simp [normalMatrix, restrictedLhs, targetEval, MatrixXd.add, MatrixXd.smul,
      MatrixXd.Identity, LSDenseEvalData.markIndices, LSDenseEvalData.gatherLoop,
      MatrixXd.uninit, MatrixXd.setCol] at ha
    exact ha
  subst ha0
  simp [normalMatrix, restrictedLhs, targetEval, diagSolve, LSDenseEvalData.markIndices,
    LSDenseEvalData.gatherLoop, MatrixXd.Identity, MatrixXd.smul, MatrixXd.add, MatrixXd.mul,
    MatrixXd.mulVec, MatrixXd.transpose, MatrixXd.uninit, MatrixXd.setCol, MatrixXd.col,
    VectorXd.ofFn, sumTo, VectorXd.coeff, VectorXd.sub, VectorXd.neg]
  norm_num

/-- C7, witness: `r(x) = x - (1, 2)` evaluated at `(0, 4)` with damping `1` and the bound
`x[0] >= 0` active: the restricted system is `2 * delta[1] = -2`. -/
theorem restricted_step_witness :
    (∀ c ∈ [(⟨0, 0, 1⟩ : LSBoxConstraint)], c.index < (targetEval [1, 2] [0, 4])._errDer.cols) ∧
    [(⟨0, 0, 1⟩ : LSBoxConstraint)].Pairwise (fun a b => a.index ≠ b.index) ∧
    VectorXd.coeff ((targetEval [1, 2] [0, 4]).solveForDelta diagSolve 1 [⟨0, 0, 1⟩]).1 0 = 0 ∧
    SolvesRestricted (targetEval [1, 2] [0, 4]) 1
      (freeIndices (targetEval [1, 2] [0, 4])._errDer.cols [⟨0, 0, 1⟩])
      (fun j => VectorXd.coeff
        ((targetEval [1, 2] [0, 4]).solveForDelta diagSolve 1 [⟨0, 0, 1⟩]).1
        ((freeIndices (targetEval [1, 2] [0, 4])._errDer.cols [⟨0, 0, 1⟩]).getD j 0)) :=
  have h := restricted_step diagSolve (targetEval [1, 2] [0, 4]) 1 [⟨0, 0, 1⟩]
    (by simp [targetEval, MatrixXd.Identity]) (by simp)
    (fun hA => absurd hA (by simp)) (fun _ _ => targetEval_restricted_isSolution)
  ⟨by simp [targetEval, MatrixXd.Identity], by simp, h.1 ⟨0, 0, 1⟩ (by simp), h.2.2.2.1⟩

end Cornu

namespace Cornu

namespace LSSolver

/-! ## The iterates of `solve` -/

end LSSolver

/-! ## Sums -/

theorem sumTo_nonneg (n : Nat) (f : Nat → ℚ) (h : ∀ i, i < n → 0 ≤ f i) : 0 ≤ sumTo n f := by
  induction n with
  | zero => exact le_refl _
  | succ n ih =>
    rw [sumTo]
    exact add_nonneg (ih (fun i hi => h i (Nat.lt_succ_of_lt hi))) (h n (Nat.lt_succ_self n))

end Cornu

namespace Cornu

/-! ## The problem `r(x) = x - target` -/

namespace LSSolver

end LSSolver

end Cornu

namespace Cornu

namespace LSSolver

end LSSolver

end Cornu

namespace Cornu

namespace LSSolver

/-! ## The claims on convergence -/

end LSSolver

end Cornu

namespace Cornu

theorem exists_pair_of_length_two (v : VectorXd) (h : v.length = 2) :
    ∃ a b : ℚ, v = [a, b] := by
  match v, h with
  | [a, b], _ => exact ⟨a, b, rfl⟩

end Cornu

namespace Cornu

namespace LSSolver

end LSSolver

end Cornu

namespace Cornu

namespace LSSolver

end LSSolver

end Cornu

namespace Cornu

/-! ## `VectorC` -/

theorem neg_lt_tmod (a n : Int) (hn : 0 < n) : -n < a.tmod n := by
  obtain ⟨k, rfl⟩ := Int.eq_succ_of_zero_lt hn
  cases a with
  | ofNat m =>
    have := Int.tmod_nonneg (↑(k.succ) : Int) (Int.ofNat_nonneg m)
    have h2 : (0 : Int) < ↑(k.succ) := hn
    exact lt_of_lt_of_le (by omega) this
  | negSucc m =>
    show -(↑(k.succ) : Int) < -↑((m + 1) % (k.succ))
    have := Nat.mod_lt (m + 1) (Nat.succ_pos k)
    omega

/-- The index computed by the circular branch of `toLinearIdx` is the remainder of the
Euclidean division. -/
theorem wrap_eq_emod (idx n : Int) (hn : 0 < n) :
    (if idx.tmod n ≥ 0 then idx.tmod n else idx.tmod n + n) = idx % n := by
  have h1 := Int.tmod_add_tdiv idx n
  have h2 := Int.tmod_lt_of_pos idx hn
  have h3 := neg_lt_tmod idx n hn
  split_ifs with h
  · have e : idx % n = (idx.tmod n + n * idx.tdiv n) % n := by rw [h1]
    rw [e, Int.add_mul_emod_self_left, Int.emod_eq_of_lt h h2]
  · have e : idx % n = ((idx.tmod n + n) + n * (idx.tdiv n - 1)) % n := by
      congr 1
      rw [mul_sub, mul_one]
      omega
    rw [e, Int.add_mul_emod_self_left, Int.emod_eq_of_lt (by omega) (by omega)]

namespace VectorC

theorem toLinearIdx_circular {T : Type} (v : VectorC T) (idx : Int)
    (hc : v._circular = CircularType.CIRCULAR) (hn : 0 < v.size) :
    v.toLinearIdx idx = idx % v.size := by
  unfold toLinearIdx
  rw [if_neg (by rw [hc]; decide)]
  exact wrap_eq_emod idx v.size hn

theorem toLinearIdx_not_circular {T : Type} (v : VectorC T) (idx : Int)
    (hc : v._circular = CircularType.NOT_CIRCULAR) : v.toLinearIdx idx = idx := by
  unfold toLinearIdx
  rw [if_pos hc]

end VectorC

/-- C12: for a `VectorC` of size `n > 0` marked `CIRCULAR` and every index `idx`, negative
ones included, `operator[](idx)` accesses the linear index `k = toLinearIdx(idx)` with
`0 <= k < n` and `k` congruent to `idx` modulo `n`, an element of the vector; for a
`NOT_CIRCULAR` vector `toLinearIdx(idx)` is `idx` and `operator[](idx)` is the same access as
`flatAt(idx)`. -/
theorem circular_indexing {T : Type} (v : VectorC T) (idx : Int) :
    (v._circular = CircularType.CIRCULAR → 0 < v.size →
      0 ≤ v.toLinearIdx idx ∧ v.toLinearIdx idx < v.size ∧
      v.toLinearIdx idx ≡ idx [ZMOD v.size] ∧
      v.get idx = v.flatAt (v.toLinearIdx idx) ∧
      ∃ t, v.get idx = some t ∧ v.base[(v.toLinearIdx idx).toNat]? = some t) ∧
    (v._circular = CircularType.NOT_CIRCULAR →
      v.toLinearIdx idx = idx ∧ v.get idx = v.flatAt idx) := by
  constructor
  · intro hc hn
    have hk := VectorC.toLinearIdx_circular v idx hc hn
    have h0 : 0 ≤ v.toLinearIdx idx := by rw [hk]; exact Int.emod_nonneg _ hn.ne'
    have h1 : v.toLinearIdx idx < v.size := by rw [hk]; exact Int.emod_lt_of_pos _ hn
    refine ⟨h0, h1, ?_, rfl, ?_⟩
    · rw [hk]
      exact Int.mod_modEq idx v.size
    · have hlt : (v.toLinearIdx idx).toNat < v.base.length := by
        unfold VectorC.size at h1
        omega
      refine ⟨v.base[(v.toLinearIdx idx).toNat], ?_, ?_⟩
      · unfold VectorC.get VectorC.baseAt
        rw [if_pos h0, List.getElem?_eq_getElem hlt]
      · rw [List.getElem?_eq_getElem hlt]
  · intro hc
    have hk := VectorC.toLinearIdx_not_circular v idx hc
    refine ⟨hk, ?_⟩
    unfold VectorC.get VectorC.flatAt
    rw [hk]

/-- C12, witness: in the circular vector `[10, 20, 30]` the index `-4` reaches the linear
index `2`. -/
theorem circular_indexing_witness :
    (VectorC.mk [10, 20, 30] CircularType.CIRCULAR : VectorC Nat).toLinearIdx (-4) = 2 ∧
    (VectorC.mk [10, 20, 30] CircularType.CIRCULAR : VectorC Nat).toLinearIdx (-4)
      ≡ -4 [ZMOD (VectorC.mk [10, 20, 30] CircularType.CIRCULAR : VectorC Nat).size] ∧
    (VectorC.mk [10, 20, 30] CircularType.CIRCULAR : VectorC Nat).get (-4) = some 30 :=
  ⟨by decide,
   ((circular_indexing (VectorC.mk [10, 20, 30] CircularType.CIRCULAR : VectorC Nat) (-4)).1
      rfl (by decide)).2.2.1,
   by decide⟩

end Cornu

namespace Cornu

namespace VectorC

theorem circular_cases {T : Type} (v : VectorC T) :
    v._circular = CircularType.NOT_CIRCULAR ∨ v._circular = CircularType.CIRCULAR := by
  cases h : v._circular
  · exact Or.inl rfl
  · exact Or.inr rfl

theorem size_nonneg {T : Type} (v : VectorC T) : 0 ≤ v.size := by
  unfold size
  exact Int.ofNat_nonneg _

theorem endIdx_circular {T : Type} (v : VectorC T) (offset : Int)
    (hc : v._circular = CircularType.CIRCULAR) : v.endIdx offset = v.size := by
  unfold endIdx
  rw [if_pos (by rw [hc]; decide)]

theorem endIdx_not_circular {T : Type} (v : VectorC T) (offset : Int)
    (hc : v._circular = CircularType.NOT_CIRCULAR) :
    v.endIdx offset = max 0 (v.size - offset) := by
  unfold endIdx
  rw [if_neg (by rw [hc]; decide)]

theorem get_of_range {T : Type} (v : VectorC T) (idx : Int)
    (h0 : 0 ≤ v.toLinearIdx idx) (h1 : v.toLinearIdx idx < v.size) :
    ∃ t, v.get idx = some t := by
  have hlt : (v.toLinearIdx idx).toNat < v.base.length := by
    unfold size at h1
    omega
  refine ⟨v.base[(v.toLinearIdx idx).toNat], ?_⟩
  unfold get baseAt
  rw [if_pos h0, List.getElem?_eq_getElem hlt]

end VectorC

/-- C13: for every `VectorC`, circular or not, of any size, and every `offset >= 0`, every `i`
with `0 <= i < endIdx(offset)` and every `j` with `0 <= j <= offset` give an access
`operator[](i + j)` whose linear index lies in `[0, size())`, an element of the vector; for a
non-circular vector `endIdx(offset)` is `max(0, size() - offset)` and no larger bound has this
property; for a circular vector `endIdx(offset)` is `size()`. -/
theorem endIdx_spec {T : Type} (v : VectorC T) (offset : Int) (ho : 0 ≤ offset) :
    (∀ i j : Int, 0 ≤ i → i < v.endIdx offset → 0 ≤ j → j ≤ offset →
      0 ≤ v.toLinearIdx (i + j) ∧ v.toLinearIdx (i + j) < v.size ∧
      ∃ t, v.get (i + j) = some t) ∧
    (v._circular = CircularType.NOT_CIRCULAR →
      v.endIdx offset = max 0 (v.size - offset) ∧
      ∀ B : Int, (∀ i j : Int, 0 ≤ i → i < B → 0 ≤ j → j ≤ offset →
        0 ≤ v.toLinearIdx (i + j) ∧ v.toLinearIdx (i + j) < v.size) → B ≤ v.endIdx offset) ∧
    (v._circular = CircularType.CIRCULAR → v.endIdx offset = v.size) := by
  refine ⟨?_, ?_, VectorC.endIdx_circular v offset⟩
  · intro i j hi0 hi hj0 hj
    have hrange : 0 ≤ v.toLinearIdx (i + j) ∧ v.toLinearIdx (i + j) < v.size := by
      rcases VectorC.circular_cases v with hc | hc
      · rw [VectorC.endIdx_not_circular v offset hc] at hi
        rw [VectorC.toLinearIdx_not_circular v _ hc]
        rcases le_or_lt (v.size - offset) 0 with h | h
        · rw [max_eq_left h] at hi
          omega
        · rw [max_eq_right h.le] at hi
          omega
      · rw [VectorC.endIdx_circular v offset hc] at hi
        have hn : 0 < v.size := lt_of_le_of_lt hi0 hi
        rw [VectorC.toLinearIdx_circular v _ hc hn]
        exact ⟨Int.emod_nonneg _ hn.ne', Int.emod_lt_of_pos _ hn⟩
    exact ⟨hrange.1, hrange.2, VectorC.get_of_range v _ hrange.1 hrange.2⟩
  · intro hc
    refine ⟨VectorC.endIdx_not_circular v offset hc, ?_⟩
    intro B hB
    rw [VectorC.endIdx_not_circular v offset hc]
    by_contra hlt
    have hlt2 : max 0 (v.size - offset) < B := lt_of_not_le hlt
    have h := hB (max 0 (v.size - offset)) offset (le_max_left _ _) hlt2 ho (le_refl _)
    rw [VectorC.toLinearIdx_not_circular v _ hc] at h
    have h3 : v.size - offset ≤ max 0 (v.size - offset) := le_max_right _ _
    omega

/-- C13, witness: in the non-circular vector `[10, 20, 30]` with offset `1` the bound is `2`,
and the access at `1 + 1` stays inside the vector. -/
theorem endIdx_spec_witness :
    (0 : Int) ≤ 1 ∧
    (VectorC.mk [10, 20, 30] CircularType.NOT_CIRCULAR : VectorC Nat).endIdx 1 = 2 ∧
    (0 ≤ (VectorC.mk [10, 20, 30] CircularType.NOT_CIRCULAR : VectorC Nat).toLinearIdx (1 + 1) ∧
     (VectorC.mk [10, 20, 30] CircularType.NOT_CIRCULAR : VectorC Nat).toLinearIdx (1 + 1)
       < (VectorC.mk [10, 20, 30] CircularType.NOT_CIRCULAR : VectorC Nat).size ∧
     ∃ t, (VectorC.mk [10, 20, 30] CircularType.NOT_CIRCULAR : VectorC Nat).get (1 + 1)
       = some t) :=
  ⟨by decide, by decide,
   (endIdx_spec (VectorC.mk [10, 20, 30] CircularType.NOT_CIRCULAR : VectorC Nat) 1
      (by decide)).1 1 1 (by decide) (by decide) (by decide) (by decide)⟩

end Cornu

namespace Cornu

namespace Circulator

theorem traverse_succ {T : Type} (step : Circulator T → Circulator T) (fuel : Nat)
    (c : Circulator T) :
    traverse step (fuel + 1) c =
      if c.done then some [] else (traverse step fuel (step c)).map (fun l => c.index :: l) :=
  rfl

theorem range_succ_map (f : Int → Int) (m : Nat) :
    (List.range (m + 1)).map (fun u : Nat => f (u : Int)) =
      f 0 :: (List.range m).map (fun u : Nat => f ((u : Int) + 1)) := by
  rw [List.range_succ_eq_map, List.map_cons, List.map_map]
  congr 1

/-- Stepping forward in a circular vector: from the position `s + t` of a circulator started
at `s`, the loop visits the remaining `m = n - t` positions. -/
theorem traverse_incr_circular {T : Type} (v : VectorC T) (s : Int)
    (hc : v._circular = CircularType.CIRCULAR) :
    ∀ (m t fuel : Nat), t + m = v.base.length → m < fuel →
      traverse incr fuel { _ptr := v, _idx := s + t, _startIdx := s } =
        some ((List.range m).map (fun u : Nat => (s + t + (u : Int)) % v.size)) := by
  intro m
  induction m with
  | zero =>
    intro t fuel ht hf
    obtain ⟨f, rfl⟩ : ∃ f, fuel = f + 1 := ⟨fuel - 1, by omega⟩
    rw [traverse_succ]
    have hd : done ({ _ptr := v, _idx := s + t, _startIdx := s } : Circulator T) = true := by
      unfold done
      simp only []
      rw [if_pos (by rw [hc]; decide)]
      apply decide_eq_true
      unfold VectorC.size
      omega
    rw [if_pos hd]
    rfl
  | succ m ih =>
    intro t fuel ht hf
    obtain ⟨f, rfl⟩ : ∃ f, fuel = f + 1 := ⟨fuel - 1, by omega⟩
    rw [traverse_succ]
    have hd : ¬ done ({ _ptr := v, _idx := s + t, _startIdx := s } : Circulator T) = true := by
      unfold done
      simp only []
      rw [if_pos (by rw [hc]; decide)]
      intro h
      have h2 := of_decide_eq_true h
      unfold VectorC.size at h2
      omega
    rw [if_neg hd]
    have hstep : incr ({ _ptr := v, _idx := s + t, _startIdx := s } : Circulator T) =
        { _ptr := v, _idx := s + ((t + 1 : Nat) : Int), _startIdx := s } := by
      unfold incr
      simp only []
      congr 1
      push_cast
      ring
    rw [hstep, ih (t + 1) f (by omega) (by omega)]
    have hn : 0 < v.size := by
      unfold VectorC.size
      omega
    have hi : index ({ _ptr := v, _idx := s + t, _startIdx := s } : Circulator T) =
        (s + t) % v.size := by
      unfold index
      exact VectorC.toLinearIdx_circular v _ hc hn
    rw [hi, range_succ_map (fun u => (s + t + u) % v.size) m]
    simp only [Option.map_some']
    congr 2
    · rw [add_zero]
    · apply List.map_congr_left
      intro u _
      congr 1
      push_cast
      ring

/-- Stepping backward in a circular vector. -/
theorem traverse_decr_circular {T : Type} (v : VectorC T) (s : Int)
    (hc : v._circular = CircularType.CIRCULAR) :
    ∀ (m t fuel : Nat), t + m = v.base.length → m < fuel →
      traverse decr fuel { _ptr := v, _idx := s - t, _startIdx := s } =
        some ((List.range m).map (fun u : Nat => (s - t - (u : Int)) % v.size)) := by
  intro m
  induction m with
  | zero =>
    intro t fuel ht hf
    obtain ⟨f, rfl⟩ : ∃ f, fuel = f + 1 := ⟨fuel - 1, by omega⟩
    rw [traverse_succ]
    have hd : done ({ _ptr := v, _idx := s - t, _startIdx := s } : Circulator T) = true := by
      unfold done
      simp only []
      rw [if_pos (by rw [hc]; decide)]
      apply decide_eq_true
      unfold VectorC.size
      omega
    rw [if_pos hd]
    rfl
  | succ m ih =>
    intro t fuel ht hf
    obtain ⟨f, rfl⟩ : ∃ f, fuel = f + 1 := ⟨fuel - 1, by omega⟩
    rw [traverse_succ]
    have hd : ¬ done ({ _ptr := v, _idx := s - t, _startIdx := s } : Circulator T) = true := by
      unfold done
      simp only []
      rw [if_pos (by rw [hc]; decide)]
      intro h
      have h2 := of_decide_eq_true h
      unfold VectorC.size at h2
      omega
    rw [if_neg hd]
    have hstep : decr ({ _ptr := v, _idx := s - t, _startIdx := s } : Circulator T) =
        { _ptr := v, _idx := s - ((t + 1 : Nat) : Int), _startIdx := s } := by
      unfold decr
      simp only []
      congr 1
      push_cast
      ring
    rw [hstep, ih (t + 1) f (by omega) (by omega)]
    have hn : 0 < v.size := by
      unfold VectorC.size
      omega
    have hi : index ({ _ptr := v, _idx := s - t, _startIdx := s } : Circulator T) =
        (s - t) % v.size := by
      unfold index
      exact VectorC.toLinearIdx_circular v _ hc hn
    rw [hi, range_succ_map (fun u => (s - t - u) % v.size) m]
    simp only [Option.map_some']
    congr 2
    · rw [sub_zero]
    · apply List.map_congr_left
      intro u _
      congr 1
      push_cast
      ring

/-- Stepping forward in a non-circular vector. -/
theorem traverse_incr_flat {T : Type} (v : VectorC T)
    (hc : v._circular = CircularType.NOT_CIRCULAR) :
    ∀ (m t fuel : Nat), t + m = v.base.length → m < fuel →
      traverse incr fuel { _ptr := v, _idx := (t : Int), _startIdx := 0 } =
        some ((List.range m).map (fun u : Nat => (t : Int) + (u : Int))) := by
  intro m
  induction m with
  | zero =>
    intro t fuel ht hf
    obtain ⟨f, rfl⟩ : ∃ f, fuel = f + 1 := ⟨fuel - 1, by omega⟩
    rw [traverse_succ]
    have hd : done ({ _ptr := v, _idx := (t : Int), _startIdx := 0 } : Circulator T) = true := by
      unfold done
      simp only []
      rw [if_neg (by rw [hc]; decide)]
      apply decide_eq_true
      unfold VectorC.size
      omega
    rw [if_pos hd]
    rfl
  | succ m ih =>
    intro t fuel ht hf
    obtain ⟨f, rfl⟩ : ∃ f, fuel = f + 1 := ⟨fuel - 1, by omega⟩
    rw [traverse_succ]
    have hd : ¬ done ({ _ptr := v, _idx := (t : Int), _startIdx := 0 } : Circulator T) = true := by
      unfold done
      simp only []
      rw [if_neg (by rw [hc]; decide)]
      intro h
      have h2 := of_decide_eq_true h
      unfold VectorC.size at h2
      omega
    rw [if_neg hd]
    have hstep : incr ({ _ptr := v, _idx := (t : Int), _startIdx := 0 } : Circulator T) =
        { _ptr := v, _idx := ((t + 1 : Nat) : Int), _startIdx := 0 } := by
      unfold incr
      simp only []
      congr 1
    rw [hstep, ih (t + 1) f (by omega) (by omega)]
    have hi : index ({ _ptr := v, _idx := (t : Int), _startIdx := 0 } : Circulator T) =
        (t : Int) := by
      unfold index
      exact VectorC.toLinearIdx_not_circular v _ hc
    rw [hi, range_succ_map (fun u => (t : Int) + u) m]
    simp only [Option.map_some']
    congr 2
    apply List.map_congr_left
    intro u _
    push_cast
    ring

end Circulator

end Cornu

namespace Cornu

namespace Circulator

/-- A list of `N` remainders modulo `N` whose preimages are pairwise incongruent and reach
every class holds each value of `[0, N)` exactly once. -/
theorem visits_spec (g : Nat → Int) (N : Nat) (hN : 0 < N)
    (hinj : ∀ u < N, ∀ w < N, g u ≡ g w [ZMOD (N : Int)] → u = w)
    (hsur : ∀ m : Int, ∃ u < N, g u ≡ m [ZMOD (N : Int)]) :
    ((List.range N).map (fun u : Nat => g u % (N : Int))).length = N ∧
    ((List.range N).map (fun u : Nat => g u % (N : Int))).Nodup ∧
    ∀ m : Int, m ∈ (List.range N).map (fun u : Nat => g u % (N : Int)) ↔
      0 ≤ m ∧ m < (N : Int) := by
  have hpos : (0 : Int) < (N : Int) := by exact_mod_cast hN
  refine ⟨by rw [List.length_map, List.length_range], ?_, ?_⟩
  · apply List.Nodup.map_on _ (List.nodup_range N)
    intro u hu w hw h
    exact hinj u (List.mem_range.mp hu) w (List.mem_range.mp hw) h
  · intro m
    rw [List.mem_map]
    constructor
    · rintro ⟨u, _, rfl⟩
      exact ⟨Int.emod_nonneg _ hpos.ne', Int.emod_lt_of_pos _ hpos⟩
    · rintro ⟨h0, h1⟩
      obtain ⟨u, hu, h⟩ := hsur m
      refine ⟨u, List.mem_range.mpr hu, ?_⟩
      have h2 : g u % (N : Int) = m % (N : Int) := h
      rw [h2, Int.emod_eq_of_lt h0 h1]

theorem eq_of_modEq_of_lt (N u w : Nat) (hu : u < N) (hw : w < N)
    (h : (u : Int) ≡ (w : Int) [ZMOD (N : Int)]) : u = w := by
  have h1 : (u : Int) % (N : Int) = (w : Int) % (N : Int) := h
  rw [Int.emod_eq_of_lt (Int.ofNat_nonneg u) (by exact_mod_cast hu),
    Int.emod_eq_of_lt (Int.ofNat_nonneg w) (by exact_mod_cast hw)] at h1
  exact_mod_cast h1

theorem forward_visits (k : Int) (N : Nat) (hN : 0 < N) :
    ((List.range N).map (fun u : Nat => (k + (u : Int)) % (N : Int))).length = N ∧
    ((List.range N).map (fun u : Nat => (k + (u : Int)) % (N : Int))).Nodup ∧
    ∀ m : Int, m ∈ (List.range N).map (fun u : Nat => (k + (u : Int)) % (N : Int)) ↔
      0 ≤ m ∧ m < (N : Int) := by
  have hpos : (0 : Int) < (N : Int) := by exact_mod_cast hN
  apply visits_spec (fun u : Nat => k + (u : Int)) N hN
  · intro u hu w hw h
    exact eq_of_modEq_of_lt N u w hu hw (Int.ModEq.add_left_cancel' k h)
  · intro m
    have h0 := Int.emod_nonneg (m - k) hpos.ne'
    have h1 := Int.emod_lt_of_pos (m - k) hpos
    refine ⟨((m - k) % (N : Int)).toNat, by omega, ?_⟩
    have e : (((m - k) % (N : Int)).toNat : Int) = (m - k) % (N : Int) := Int.toNat_of_nonneg h0
    show k + (((m - k) % (N : Int)).toNat : Int) ≡ m [ZMOD (N : Int)]
    rw [e]
    have h2 : k + (m - k) % (N : Int) ≡ k + (m - k) [ZMOD (N : Int)] :=
      Int.ModEq.add_left k (Int.mod_modEq (m - k) (N : Int))
    rw [add_sub_cancel] at h2
    exact h2

theorem backward_visits (k : Int) (N : Nat) (hN : 0 < N) :
    ((List.range N).map (fun u : Nat => (k - (u : Int)) % (N : Int))).length = N ∧
    ((List.range N).map (fun u : Nat => (k - (u : Int)) % (N : Int))).Nodup ∧
    ∀ m : Int, m ∈ (List.range N).map (fun u : Nat => (k - (u : Int)) % (N : Int)) ↔
      0 ≤ m ∧ m < (N : Int) := by
  have hpos : (0 : Int) < (N : Int) := by exact_mod_cast hN
  apply visits_spec (fun u : Nat => k - (u : Int)) N hN
  · intro u hu w hw h
    have h2 : k - (k - (u : Int)) ≡ k - (k - (w : Int)) [ZMOD (N : Int)] :=
      Int.ModEq.sub_left k h
    rw [sub_sub_cancel, sub_sub_cancel] at h2
    exact eq_of_modEq_of_lt N u w hu hw h2
  · intro m
    have h0 := Int.emod_nonneg (k - m) hpos.ne'
    have h1 := Int.emod_lt_of_pos (k - m) hpos
    refine ⟨((k - m) % (N : Int)).toNat, by omega, ?_⟩
    have e : (((k - m) % (N : Int)).toNat : Int) = (k - m) % (N : Int) := Int.toNat_of_nonneg h0
    show k - (((k - m) % (N : Int)).toNat : Int) ≡ m [ZMOD (N : Int)]
    rw [e]
    have h2 : k - (k - m) % (N : Int) ≡ k - (k - m) [ZMOD (N : Int)] :=
      Int.ModEq.sub_left k (Int.mod_modEq (k - m) (N : Int))
    rw [sub_sub_cancel] at h2
    exact h2

theorem traverse_incr_circulator {T : Type} (v : VectorC T) (k : Int) (fuel : Nat)
    (hc : v._circular = CircularType.CIRCULAR) (hn : 0 < v.size) (hf : v.base.length < fuel) :
    traverse incr fuel (v.circulator k) =
      some ((List.range v.base.length).map (fun u : Nat => (k + (u : Int)) % v.size)) := by
  have h := traverse_incr_circular v (v.toLinearIdx k) hc v.base.length 0 fuel (by omega) hf
  have e : (v.circulator k) =
      { _ptr := v, _idx := v.toLinearIdx k + ((0 : Nat) : Int), _startIdx := v.toLinearIdx k } := by
    unfold VectorC.circulator new
    congr 1
    simp
  rw [e, h]
  congr 1
  apply List.map_congr_left
  intro u _
  rw [VectorC.toLinearIdx_circular v k hc hn]
  push_cast
  rw [add_zero, Int.emod_add_emod]

theorem traverse_decr_circulator {T : Type} (v : VectorC T) (k : Int) (fuel : Nat)
    (hc : v._circular = CircularType.CIRCULAR) (hn : 0 < v.size) (hf : v.base.length < fuel) :
    traverse decr fuel (v.circulator k) =
      some ((List.range v.base.length).map (fun u : Nat => (k - (u : Int)) % v.size)) := by
  have h := traverse_decr_circular v (v.toLinearIdx k) hc v.base.length 0 fuel (by omega) hf
  have e : (v.circulator k) =
      { _ptr := v, _idx := v.toLinearIdx k - ((0 : Nat) : Int), _startIdx := v.toLinearIdx k } := by
    unfold VectorC.circulator new
    congr 1
    simp
  rw [e, h]
  congr 1
  apply List.map_congr_left
  intro u _
  rw [VectorC.toLinearIdx_circular v k hc hn]
  push_cast
  rw [sub_zero]
  exact Int.ModEq.sub_right (u : Int) (Int.mod_modEq k v.size)

theorem traverse_incr_begin {T : Type} (v : VectorC T) (fuel : Nat)
    (hc : v._circular = CircularType.NOT_CIRCULAR) (hf : v.base.length < fuel) :
    traverse incr fuel v.begin =
      some ((List.range v.base.length).map (fun u : Nat => (u : Int))) := by
  have h := traverse_incr_flat v hc v.base.length 0 fuel (by omega) hf
  have e : v.begin = { _ptr := v, _idx := ((0 : Nat) : Int), _startIdx := 0 } := rfl
  rw [e, h]
  congr 1
  apply List.map_congr_left
  intro u _
  push_cast
  rw [zero_add]

end Circulator

end Cornu

namespace Cornu

/-- C16: for a `VectorC` of size `n > 0` marked `CIRCULAR` and every start index `k`, the loop
that starts at `circulator(k)` and applies `operator++` until `done()` holds terminates (any
fuel above `n` suffices), runs exactly `n` times, and `index()` takes each value of `[0, n)`
exactly once, in the order `k mod n, (k+1) mod n, ...`; stepping with `operator--` the same
holds, the order being `k mod n, (k-1) mod n, ...`; for a `NOT_CIRCULAR` vector the loop
started at `begin()` visits `0, 1, ..., n-1` once each and then `done()` holds. -/
theorem circulator_traversal {T : Type} (v : VectorC T) (k : Int) (fuel : Nat)
    (hf : v.base.length < fuel) :
    (v._circular = CircularType.CIRCULAR → 0 < v.size →
      (∃ l, Circulator.traverse Circulator.incr fuel (v.circulator k) = some l ∧
        l = (List.range v.base.length).map (fun u : Nat => (k + (u : Int)) % v.size) ∧
        l.length = v.base.length ∧ l.Nodup ∧ ∀ m : Int, m ∈ l ↔ 0 ≤ m ∧ m < v.size) ∧
      (∃ l, Circulator.traverse Circulator.decr fuel (v.circulator k) = some l ∧
        l = (List.range v.base.length).map (fun u : Nat => (k - (u : Int)) % v.size) ∧
        l.length = v.base.length ∧ l.Nodup ∧ ∀ m : Int, m ∈ l ↔ 0 ≤ m ∧ m < v.size)) ∧
    (v._circular = CircularType.NOT_CIRCULAR →
      Circulator.traverse Circulator.incr fuel v.begin =
        some ((List.range v.base.length).map (fun u : Nat => (u : Int)))) := by
  refine ⟨?_, fun hc => Circulator.traverse_incr_begin v fuel hc hf⟩
  intro hc hn
  have hN : 0 < v.base.length := by
    unfold VectorC.size at hn
    omega
  constructor
  · exact ⟨_, Circulator.traverse_incr_circulator v k fuel hc hn hf, rfl,
      Circulator.forward_visits k v.base.length hN⟩
  · exact ⟨_, Circulator.traverse_decr_circulator v k fuel hc hn hf, rfl,
      Circulator.backward_visits k v.base.length hN⟩

/-- C16, witness: in the circular vector `[10, 20, 30]` the loop started at `circulator(-4)`
visits `2, 0, 1` going forward; in the non-circular one the loop from `begin()` visits
`0, 1, 2`. -/
theorem circulator_traversal_witness :
    (3 < 4) ∧
    Circulator.traverse Circulator.incr 4
      ((VectorC.mk [10, 20, 30] CircularType.CIRCULAR : VectorC Nat).circulator (-4)) =
        some [2, 0, 1] ∧
    Circulator.traverse Circulator.decr 4
      ((VectorC.mk [10, 20, 30] CircularType.CIRCULAR : VectorC Nat).circulator (-4)) =
        some [2, 1, 0] ∧
    Circulator.traverse Circulator.incr 4
      (VectorC.mk [10, 20, 30] CircularType.NOT_CIRCULAR : VectorC Nat).begin =
        some ((List.range 3).map (fun u : Nat => (u : Int))) :=
  ⟨by decide, by decide, by decide,
   (circulator_traversal (VectorC.mk [10, 20, 30] CircularType.NOT_CIRCULAR : VectorC Nat) 0 4
      (by decide)).2 rfl⟩

end Cornu

namespace Cornu

namespace LSSolver

/-! ## Disposal of the evaluation state -/

theorem loop_returned (S : LSSolver) (n : Nat) (s : SolveState) (log : List Event)
    (x : VectorXd) (log1 : List Event) (h : loop S n s log = Outcome.returned x log1) :
    S._problem.error x < 1 / 10 ^ 8 ∧ Event.eval x ∈ log1 := by
  induction n generalizing s log with
  | zero => simp [loop] at h
  | succ n ih =>
    rw [loop] at h
    cases hb : S.body s with
    | none =>
      rw [hb] at h
      simp only [Outcome.returned.injEq] at h
      obtain ⟨rfl, rfl⟩ := h
      refine ⟨?_, by simp⟩
      unfold body at hb
      simp only [] at hb
      split_ifs at hb with h1 h2
      exact h2
    | some s1 =>
      rw [hb] at h
      exact ih s1 _ h

/-- When no point evaluated by `solve` has an error below `1e-8`, the loop runs to `maxIter`
and the evaluation state is created once and deleted once. -/
theorem solveHeap_of_not_converged (S : LSSolver) (guess : VectorXd)
    (h : ∀ y ∈ S.evaluated guess, 1 / 10 ^ 8 ≤ S._problem.error y) :
    S.solveHeap guess = [HeapEvent.createEvalData, HeapEvent.deleteEvalData] := by
  unfold solveHeap
  cases hl : loop S S._maxIter.toNat (S.initState guess) [] with
  | finished s log => rfl
  | returned x log =>
    exfalso
    have h1 := loop_returned S _ _ _ x log hl
    have h2 : x ∈ S.evaluated guess := by
      rw [mem_evaluated]
      unfold solveLog
      rw [hl]
      exact h1.2
    exact absurd h1.1 (not_lt.mpr (h x h2))

/-- When the clamped guess has an error below `1e-8` and `maxIter` is positive, `solve`
returns from inside the loop and the evaluation state is never deleted. -/
theorem solveHeap_of_converged_guess (S : LSSolver) (guess : VectorXd)
    (hm : 0 < S._maxIter) (h : S._problem.error (S._clamp guess).1 < 1 / 10 ^ 8) :
    S.solveHeap guess = [HeapEvent.createEvalData] := by
  unfold solveHeap
  obtain ⟨n, hn⟩ : ∃ n, S._maxIter.toNat = n + 1 := ⟨S._maxIter.toNat - 1, by omega⟩
  have hb : S.body (S.initState guess) = none := by
    unfold body initState
    simp only []
    rw [if_pos (lt_trans h (by norm_num)), if_pos h]
  rw [hn, loop, hb]

end LSSolver

/-- C11, the code at the early return: for `r(x) = x - 1` and the guess `[1]`, with the
default damping `1` and `maxIter = 100`, the first evaluation has the error `0`, below `1e-8`;
`solve` returns `[1]` from inside the loop, and the evaluation state obtained from
`createEvalData` is disposed of zero times, not once. -/
theorem disposal_skipped_on_early_return :
    (targetSolver [1] 1 100)._problem.error [1] < 1 / 10 ^ 8 ∧
    (targetSolver [1] 1 100).solve [1] = [1] ∧
    (targetSolver [1] 1 100).solveHeap [1] = [HeapEvent.createEvalData] ∧
    (targetSolver [1] 1 100).disposals [1] = 0 := by
  have he : (targetSolver [1] 1 100)._problem.error [1] = 0 := by
    norm_num [targetSolver, targetSolverWith, denseProblem, targetEval, LSDenseEvalData.error,
      VectorXd.sub, VectorXd.squaredNorm]
  have hb : (targetSolver [1] 1 100).body
      { x := [1], activeSet := [], best := [], bestError := 10 ^ 100 } = none := by
    unfold LSSolver.body
    simp only []
    rw [he]
    norm_num
  have hc : (targetSolver [1] 1 100).initState [1] =
      { x := [1], activeSet := [], best := [], bestError := 10 ^ 100 } := by
    simp [LSSolver.initState, targetSolver, targetSolverWith, LSSolver._clamp,
      LSSolver.clampLoop]
  have hm : (targetSolver [1] 1 100)._maxIter.toNat = 99 + 1 := rfl
  have hheap : (targetSolver [1] 1 100).solveHeap [1] = [HeapEvent.createEvalData] := by
    unfold LSSolver.solveHeap
    rw [hc, hm, LSSolver.loop, hb]
  have hsolve : (targetSolver [1] 1 100).solve [1] = [1] := by
    unfold LSSolver.solve LSSolver.solveLog
    rw [hc, hm, LSSolver.loop, hb]
  refine ⟨by rw [he]; norm_num, hsolve, hheap, ?_⟩
  unfold LSSolver.disposals
  rw [hheap]
  rfl

end Cornu

namespace Cornu

namespace LSSolver

/-! ## The active-set invariant -/

end LSSolver

end Cornu

namespace Cornu

namespace LSSolver

end LSSolver

/-! ## The dense evaluation data meets the conditions of the invariant -/

end Cornu

namespace Cornu

namespace LSSolver

end LSSolver

end Cornu

namespace Cornu

/-! ## The damped normal equations are well posed -/

theorem sumTo_eq_sum (n : Nat) (f : Nat → ℚ) : sumTo n f = ∑ i : Fin n, f i := by
  induction n with
  | zero => simp [sumTo]
  | succ n ih =>
    rw [sumTo, ih, Fin.sum_univ_castSucc]
    rfl

/-- The quadratic form of `damping * I + J^T J`. -/
theorem damped_quadratic (k m : Nat) (J : Matrix (Fin m) (Fin k) ℚ) (v : Fin k → ℚ)
    (damping : ℚ) :
    Matrix.dotProduct v
      (Matrix.mulVec (damping • (1 : Matrix (Fin k) (Fin k) ℚ) + Matrix.transpose J * J) v) =
      damping * Matrix.dotProduct v v +
        Matrix.dotProduct (Matrix.mulVec J v) (Matrix.mulVec J v) := by
  rw [Matrix.add_mulVec, Matrix.dotProduct_add, Matrix.smul_mulVec_assoc, Matrix.one_mulVec,
    Matrix.dotProduct_smul, ← Matrix.mulVec_mulVec, Matrix.dotProduct_mulVec,
    Matrix.vecMul_transpose]
  rfl

theorem dotProduct_self_nonneg_rat (n : Nat) (v : Fin n → ℚ) : 0 ≤ Matrix.dotProduct v v := by
  unfold Matrix.dotProduct
  exact Finset.sum_nonneg (fun i _ => mul_self_nonneg (v i))

/-- For a positive damping the quadratic form of `damping * I + J^T J` is positive away from
zero. -/
theorem damped_pos (k m : Nat) (J : Matrix (Fin m) (Fin k) ℚ) (v : Fin k → ℚ)
    (damping : ℚ) (hpos : 0 < damping) (hv : v ≠ 0) :
    0 < Matrix.dotProduct v
      (Matrix.mulVec (damping • (1 : Matrix (Fin k) (Fin k) ℚ) + Matrix.transpose J * J) v) := by
  rw [damped_quadratic]
  have h1 : 0 < Matrix.dotProduct v v := by
    rcases (dotProduct_self_nonneg_rat k v).lt_or_eq with h | h
    · exact h
    · exact absurd (Matrix.dotProduct_self_eq_zero.mp h.symm) hv
  have h2 := dotProduct_self_nonneg_rat m (Matrix.mulVec J v)
  have h3 := mul_pos hpos h1
  linarith

theorem damped_injective (k m : Nat) (J : Matrix (Fin m) (Fin k) ℚ)
    (damping : ℚ) (hpos : 0 < damping) :
    Function.Injective
      (Matrix.mulVec (damping • (1 : Matrix (Fin k) (Fin k) ℚ) + Matrix.transpose J * J)) := by
  intro v w h
  by_contra hne
  have hd : v - w ≠ 0 := sub_ne_zero.mpr hne
  have hp := damped_pos k m J (v - w) damping hpos hd
  rw [Matrix.mulVec_sub, h, sub_self, Matrix.dotProduct_zero] at hp
  exact lt_irrefl _ hp

theorem damped_surjective (k m : Nat) (J : Matrix (Fin m) (Fin k) ℚ)
    (damping : ℚ) (hpos : 0 < damping) :
    Function.Surjective
      (Matrix.mulVec (damping • (1 : Matrix (Fin k) (Fin k) ℚ) + Matrix.transpose J * J)) := by
  have h := LinearMap.surjective_of_injective
    (f := Matrix.mulVecLin (damping • (1 : Matrix (Fin k) (Fin k) ℚ) + Matrix.transpose J * J))
    (by
      intro v w hvw
      rw [Matrix.mulVecLin_apply, Matrix.mulVecLin_apply] at hvw
      exact damped_injective k m J damping hpos hvw)
  intro b
  obtain ⟨v, hv⟩ := h b
  exact ⟨v, by rw [← hv, Matrix.mulVecLin_apply]⟩

theorem normalMatrix_rows (damping : ℚ) (lhs : MatrixXd) :
    (normalMatrix damping lhs).rows = lhs.cols := rfl

theorem normalMatrix_cols (damping : ℚ) (lhs : MatrixXd) :
    (normalMatrix damping lhs).cols = lhs.cols := rfl

theorem normalMatrix_coeff (damping : ℚ) (lhs : MatrixXd) (a b : Nat) :
    (normalMatrix damping lhs).coeff a b =
      (if a = b then 1 else 0) * damping +
        sumTo lhs.rows (fun r => lhs.coeff r a * lhs.coeff r b) := rfl

/-- The matrix handed to the factorisation, over `Fin`, is `damping * I + J^T J`. -/
theorem normalMatrix_eq (damping : ℚ) (lhs : MatrixXd) :
    (Matrix.of (fun a b : Fin lhs.cols => (normalMatrix damping lhs).coeff a b)) =
      damping • (1 : Matrix (Fin lhs.cols) (Fin lhs.cols) ℚ) +
        Matrix.transpose (Matrix.of (fun (r : Fin lhs.rows) (a : Fin lhs.cols) =>
          lhs.coeff r a)) *
        Matrix.of (fun (r : Fin lhs.rows) (a : Fin lhs.cols) => lhs.coeff r a) := by
  ext a b
  rw [Matrix.of_apply, normalMatrix_coeff, sumTo_eq_sum, Matrix.add_apply, Matrix.smul_apply,
    Matrix.one_apply, Matrix.mul_apply]
  congr 1
  by_cases h : a = b
  · subst h
    simp
  · have h2 : (a : Nat) ≠ (b : Nat) := fun h3 => h (Fin.ext h3)
    simp [h, h2]

end Cornu

namespace Cornu

theorem quadForm_eq (M : MatrixXd) (y : VectorXd) :
    quadForm M y =
      Matrix.dotProduct (fun i : Fin M.rows => VectorXd.coeff y i)
        (Matrix.mulVec (Matrix.of (fun (a : Fin M.rows) (b : Fin M.cols) => M.coeff a b))
          (fun j : Fin M.cols => VectorXd.coeff y j)) := by
  unfold quadForm
  rw [sumTo_eq_sum]
  unfold Matrix.dotProduct Matrix.mulVec Matrix.dotProduct
  apply Finset.sum_congr rfl
  intro i _
  rw [sumTo_eq_sum]
  rfl

theorem isSolution_iff (M : MatrixXd) (y b : VectorXd) :
    IsSolution M y b ↔
      Matrix.mulVec (Matrix.of (fun (a : Fin M.rows) (c : Fin M.cols) => M.coeff a c))
        (fun j : Fin M.cols => VectorXd.coeff y j) =
        (fun i : Fin M.rows => VectorXd.coeff b i) := by
  unfold IsSolution
  constructor
  · intro h
    funext i
    have := h i i.isLt
    rw [sumTo_eq_sum] at this
    exact this
  · intro h a ha
    have := congrFun h ⟨a, ha⟩
    rw [sumTo_eq_sum]
    exact this

theorem VectorXd.ext_coeff (y z : VectorXd) (n : Nat) (hy : y.length = n) (hz : z.length = n)
    (h : ∀ i, i < n → VectorXd.coeff y i = VectorXd.coeff z i) : y = z := by
  apply List.ext_getElem (by rw [hy, hz])
  intro i h1 h2
  have := h i (by rw [← hy]; exact h1)
  unfold VectorXd.coeff at this
  rw [List.getD_eq_getElem _ _ h1, List.getD_eq_getElem _ _ h2] at this
  exact this

theorem normalMatrix_symmetric (damping : ℚ) (lhs : MatrixXd) :
    IsSymmetric (normalMatrix damping lhs) := by
  refine ⟨rfl, ?_⟩
  intro a b _ _
  rw [normalMatrix_coeff, normalMatrix_coeff]
  congr 1
  · by_cases h : a = b
    · rw [if_pos h, if_pos h.symm]
    · rw [if_neg h, if_neg (fun h2 => h h2.symm)]
  · exact sumTo_congr _ _ _ (fun r _ => mul_comm _ _)

theorem normalMatrix_posDef (damping : ℚ) (lhs : MatrixXd) (hpos : 0 < damping) :
    IsPosDef (normalMatrix damping lhs) := by
  refine ⟨normalMatrix_symmetric damping lhs, ?_⟩
  rintro y _ ⟨a, ha, hne⟩
  rw [quadForm_eq]
  have hv : (fun i : Fin lhs.cols => VectorXd.coeff y i) ≠ 0 := by
    intro h0
    exact hne (congrFun h0 ⟨a, ha⟩)
  have h := damped_pos lhs.cols lhs.rows
    (Matrix.of (fun (r : Fin lhs.rows) (a : Fin lhs.cols) => lhs.coeff r a))
    (fun i : Fin lhs.cols => VectorXd.coeff y i) damping hpos hv
  rw [← normalMatrix_eq] at h
  exact h

theorem normalMatrix_exists_solution (damping : ℚ) (lhs : MatrixXd) (hpos : 0 < damping)
    (b : VectorXd) :
    ∃ y : VectorXd, y.length = lhs.cols ∧ IsSolution (normalMatrix damping lhs) y b := by
  obtain ⟨v, hv⟩ := damped_surjective lhs.cols lhs.rows
    (Matrix.of (fun (r : Fin lhs.rows) (a : Fin lhs.cols) => lhs.coeff r a)) damping hpos
    (fun i : Fin lhs.cols => VectorXd.coeff b i)
  rw [← normalMatrix_eq] at hv
  refine ⟨VectorXd.ofFn lhs.cols (fun i => if h : i < lhs.cols then v ⟨i, h⟩ else 0),
    VectorXd.length_ofFn _ _, ?_⟩
  rw [isSolution_iff]
  have e : (fun j : Fin (normalMatrix damping lhs).cols =>
      VectorXd.coeff (VectorXd.ofFn lhs.cols
        (fun i => if h : i < lhs.cols then v ⟨i, h⟩ else 0)) j) = v := by
    funext j
    have hj : (j : Nat) < lhs.cols := j.isLt
    rw [VectorXd.coeff_ofFn _ _ _ hj, dif_pos hj]
    rfl
  rw [e]
  exact hv

theorem normalMatrix_unique_solution (damping : ℚ) (lhs : MatrixXd) (hpos : 0 < damping)
    (b y z : VectorXd) (hy : y.length = lhs.cols) (hz : z.length = lhs.cols)
    (hys : IsSolution (normalMatrix damping lhs) y b)
    (hzs : IsSolution (normalMatrix damping lhs) z b) : y = z := by
  rw [isSolution_iff] at hys hzs
  have hinj := damped_injective lhs.cols lhs.rows
    (Matrix.of (fun (r : Fin lhs.rows) (a : Fin lhs.cols) => lhs.coeff r a)) damping hpos
  rw [← normalMatrix_eq] at hinj
  have h := hinj (hys.trans hzs.symm)
  apply VectorXd.ext_coeff y z lhs.cols hy hz
  intro i hi
  exact congrFun h ⟨i, hi⟩

end Cornu

namespace Cornu

/-- C14: for every matrix `lhs` (the Jacobian restricted to the free columns, of any rank,
zero included, with any number `k` of columns), every damping `lambda > 0` and every
right-hand side `b`, the matrix `lambda * I_k + lhs^T lhs` that `solveForDelta` hands to the
factorisation is square of size `k`, symmetric and positive definite, and the system
`(lambda * I_k + lhs^T lhs) y = b` has exactly one solution of size `k`; in particular for
`b = lhs^T (-r)`. -/
theorem damped_solve_well_posed (lhs : MatrixXd) (damping : ℚ) (b : VectorXd)
    (hpos : 0 < damping) :
    (normalMatrix damping lhs).rows = lhs.cols ∧
    (normalMatrix damping lhs).cols = lhs.cols ∧
    IsPosDef (normalMatrix damping lhs) ∧
    ∃ y : VectorXd, (y.length = lhs.cols ∧ IsSolution (normalMatrix damping lhs) y b) ∧
      ∀ z : VectorXd, z.length = lhs.cols → IsSolution (normalMatrix damping lhs) z b →
        z = y := by
  refine ⟨rfl, rfl, normalMatrix_posDef damping lhs hpos, ?_⟩
  obtain ⟨y, hy, hys⟩ := normalMatrix_exists_solution damping lhs hpos b
  exact ⟨y, ⟨hy, hys⟩, fun z hz hzs =>
    normalMatrix_unique_solution damping lhs hpos b z y hz hy hzs hys⟩

/-- C14, witness: a zero Jacobian with one row and two columns, the residual `[1]`, the
first variable held by an active constraint and damping `1`: the matrix built from the free
column is positive definite and the restricted system has exactly one solution. -/
theorem damped_solve_well_posed_witness :
    (0 : ℚ) < 1 ∧
    IsPosDef (normalMatrix 1
      (restrictedLhs { _err := [1], _errDer := MatrixXd.uninit 1 2 } [⟨0, 0, 1⟩])) ∧
    ∃ y : VectorXd,
      (y.length =
          (restrictedLhs { _err := [1], _errDer := MatrixXd.uninit 1 2 } [⟨0, 0, 1⟩]).cols ∧
        IsSolution
          (normalMatrix 1
            (restrictedLhs { _err := [1], _errDer := MatrixXd.uninit 1 2 } [⟨0, 0, 1⟩])) y
          ((restrictedLhs { _err := [1], _errDer := MatrixXd.uninit 1 2 }
            [⟨0, 0, 1⟩]).transpose.mulVec (VectorXd.neg [1]))) ∧
      ∀ z : VectorXd,
        z.length =
          (restrictedLhs { _err := [1], _errDer := MatrixXd.uninit 1 2 } [⟨0, 0, 1⟩]).cols →
        IsSolution
          (normalMatrix 1
            (restrictedLhs { _err := [1], _errDer := MatrixXd.uninit 1 2 } [⟨0, 0, 1⟩])) z
          ((restrictedLhs { _err := [1], _errDer := MatrixXd.uninit 1 2 }
            [⟨0, 0, 1⟩]).transpose.mulVec (VectorXd.neg [1])) →
        z = y :=
  ⟨by norm_num,
   (damped_solve_well_posed
      (restrictedLhs { _err := [1], _errDer := MatrixXd.uninit 1 2 } [⟨0, 0, 1⟩]) 1
      ((restrictedLhs { _err := [1], _errDer := MatrixXd.uninit 1 2 }
        [⟨0, 0, 1⟩]).transpose.mulVec (VectorXd.neg [1])) (by norm_num)).2.2.1,
   (damped_solve_well_posed
      (restrictedLhs { _err := [1], _errDer := MatrixXd.uninit 1 2 } [⟨0, 0, 1⟩]) 1
      ((restrictedLhs { _err := [1], _errDer := MatrixXd.uninit 1 2 }
        [⟨0, 0, 1⟩]).transpose.mulVec (VectorXd.neg [1])) (by norm_num)).2.2.2⟩

end Cornu
